import Mathlib

/-
Verification development for the earthstar per-workspace document store.

The development shallowly embeds the storage subsystem:
  * `Document`, `DocToSet`, query records (src/util/types.ts, src/storage2/query2.ts),
  * the in-memory driver (src/storage2/driverMemory.ts),
  * the workspace store (src/storage2/storage2.ts),
  * the minimal store's `documents` query (src/storage/storageMinimal.ts),
  * the sync-to-async facade (`Storage3ToAsync`).

Modelling conventions, fixed once for the whole file:
  * JavaScript strings are Lean `String`; the JS relational operators on strings
    (lexicographic by UTF-16 code unit) are modelled by `strLt`/`strLe` below,
    lexicographic by Unicode scalar value (identical on all BMP strings, and in
    particular on all ASCII strings used in witnesses).
  * JS numbers holding microsecond timestamps are modelled as `Int`.
  * `JSON`-ish sparse records are structures of `Option` fields.
  * The store's time source `this._now || Date.now() * 1000` is modelled by a
    store field `now : Int` holding the effective clock (the test clock of the
    spec; all claims quantify over stores with a fixed test clock).
    `storage2.ts` invokes the driver query methods without the `now` argument
    that the driver interface `IStorageDriver` (types2.ts) requires — the
    snapshot does not typecheck as written.  Per the interface, the tests, and
    the spec ("test-clock ... used instead of wall clock in all time-dependent
    decisions") the store is modelled as passing its clock to the driver.
  * Exceptions thrown by `_assertNotClosed` are modelled with `Except`; the
    `WriteResult | ValidationError` return values are modelled by `IngestResult`.
  * JS objects used as maps (`_docs`, the per-path slots, `_config`) are
    modelled as insertion-ordered association lists, which is exactly the
    enumeration order `Object.keys`/`Object.values` delivers for string keys.
  * `Array.prototype.sort` (stable in the engines earthstar targets) is
    modelled by the stable insertion sort `insertionSortB`.
  * Code of the repository that the snapshot does not include under src/
    (the es4 validator, `sha256base32`, query.ts of the minimal store) is
    modelled from the spec; each such definition carries a doc comment
    starting with "Modelled from the spec:".
-/

namespace Earthstar



/-- Document record (src/util/types.ts): immutable once signed. -/
structure Document where
  format : String
  workspace : String
  path : String
  contentHash : String
  content : String
  author : String
  timestamp : Int
  deleteAfter : Option Int
  signature : String
deriving DecidableEq, Repr

/-- Author keypair (src/util/types.ts `AuthorKeypair`). -/
structure AuthorKeypair where
  address : String
  secret : String
deriving DecidableEq, Repr

/-- `DocToSet` (src/util/types.ts): the caller-supplied part of `set`.
`timestamp`/`deleteAfter` are optional; JS `undefined` is `none`. -/
structure DocToSet where
  format : String
  path : String
  content : String
  timestamp : Option Int := none
  deleteAfter : Option Int := none
deriving DecidableEq, Repr

/-- Lexicographic strict comparison of char lists by Unicode scalar value;
models the JS `<` on strings (code-unit lexicographic). -/
def charListLt : List Char → List Char → Bool
  | [], [] => false
  | [], _ :: _ => true
  | _ :: _, [] => false
  | a :: as, b :: bs =>
    if a < b then true
    else if b < a then false
    else charListLt as bs

/-- JS `a < b` on strings. -/
def strLt (a b : String) : Bool := charListLt a.data b.data

/-- JS `a <= b` on strings (total order, so `a <= b` iff `¬ (b < a)`). -/
def strLe (a b : String) : Bool := !(strLt b a)

/-- Stable insertion before the first element `y` with `le x y`; together with
`insertionSortB` this models `Array.prototype.sort` with a comparator (stable
in the engines earthstar targets). -/
def orderedInsertB (le : α → α → Bool) (x : α) : List α → List α
  | [] => [x]
  | y :: ys => if le x y then x :: y :: ys else y :: orderedInsertB le x ys

/-- Stable sort by the boolean comparator `le`. -/
def insertionSortB (le : α → α → Bool) : List α → List α
  | [] => []
  | x :: xs => orderedInsertB le x (insertionSortB le xs)

/-- Association-list lookup; models JS string-keyed object property read. -/
def lookupA (k : String) : List (String × α) → Option α
  | [] => none
  | (k2, v) :: rest => if k2 = k then some v else lookupA k rest

/-- Association-list write; models JS string-keyed object property assignment
(an existing key keeps its position, a new key is appended — JS insertion
order for string keys). -/
def updateA (k : String) (v : α) : List (String × α) → List (String × α)
  | [] => [(k, v)]
  | (k2, v2) :: rest => if k2 = k then (k2, v) :: rest else (k2, v2) :: updateA k v rest

/-- Propositional form of the `historySortFn` comparator (src/storage2/query2.ts):
`a` sorts before-or-equal `b` under path ASC, then timestamp DESC, then
signature DESC.  (The source compares with JS `<`/`>`; "neither before nor
after" at a level is string/integer equality, by trichotomy.) -/
def HistLeP (a b : Document) : Prop :=
  strLt a.path b.path = true ∨
    (a.path = b.path ∧
      (b.timestamp < a.timestamp ∨
        (b.timestamp = a.timestamp ∧ strLe b.signature a.signature = true)))

instance (a b : Document) : Decidable (HistLeP a b) := by
  unfold HistLeP
  infer_instance

/-- `historySortFn` as a boolean "sorts before or equal" test. -/
def histLe (a b : Document) : Bool := decide (HistLeP a b)

/-- Lexicographic `(timestamp, signature)` order of the spec: `TsSigLe a b`
says `b` is at least as new as `a` (timestamps as integers, signature string
comparison breaking ties). -/
def TsSigLe (a b : Document) : Prop :=
  a.timestamp < b.timestamp ∨ (a.timestamp = b.timestamp ∧ strLe a.signature b.signature = true)

instance (a b : Document) : Decidable (TsSigLe a b) := by
  unfold TsSigLe
  infer_instance

/-- JS `s.length` for a string: number of UTF-16 code units. -/
def utf16Len (s : String) : Nat :=
  (s.data.map (fun c => if c.toNat < 65536 then 1 else 2)).sum

/-- UTF-8 byte length of a string (`Buffer.byteLength(s, "utf-8")`). -/
def utf8Len (s : String) : Nat := (s.data.map Char.utf8Size).sum

/-- JS `s.startsWith(pre)`. -/
def strStartsWith (pre s : String) : Bool := pre.data.isPrefixOf s.data

/-- `QueryOpts2` (src/storage2/query2.ts).  The field `pathStartsWith` is the
source's `pathPrefix` selector. -/
structure QueryOpts2 where
  path : Option String := none
  pathStartsWith : Option String := none
  timestamp_gt : Option Int := none
  timestamp_lt : Option Int := none
  author : Option String := none
  contentSize : Option Nat := none
  contentSize_gt : Option Nat := none
  contentSize_lt : Option Nat := none
  isHead : Bool := false
  limit : Option Nat := none
  limitBytes : Option Nat := none
deriving DecidableEq, Repr

/-- `queryMatchesDoc` (src/storage2/query2.ts): unset selectors do not
constrain; content sizes use JS `content.length` (UTF-16 code units). -/
def queryMatchesDoc (q : QueryOpts2) (d : Document) : Bool :=
  (match q.path with | none => true | some p => d.path == p) &&
  (match QueryOpts2.pathStartsWith q with | none => true | some pre => strStartsWith pre d.path) &&
  (match q.timestamp_gt with | none => true | some t => decide (t < d.timestamp)) &&
  (match q.timestamp_lt with | none => true | some t => decide (d.timestamp < t)) &&
  (match q.author with | none => true | some a => d.author == a) &&
  (match q.contentSize with | none => true | some n => utf16Len d.content == n) &&
  (match q.contentSize_gt with | none => true | some n => decide (n < utf16Len d.content)) &&
  (match q.contentSize_lt with | none => true | some n => decide (utf16Len d.content < n))

/-- A document is live at `now` iff `deleteAfter` is null or `now ≤
deleteAfter` (the driver keeps a doc when
`d.deleteAfter === null || now <= d.deleteAfter`). -/
def docLiveAt (d : Document) (now : Int) : Bool :=
  match d.deleteAfter with
  | none => true
  | some da => decide (now ≤ da)

/-- Per-path slots `{ author: document }` of the memory driver, as an
insertion-ordered association list. -/
abbrev Slots := List (String × Document)

/-- `_docs: { path: { author: document } }` of the memory driver. -/
abbrev DocsMap := List (String × Slots)

/-- `_docs[path]?.[author]`. -/
def slotLookup (docs : DocsMap) (p a : String) : Option Document :=
  (lookupA p docs).bind (fun slots => lookupA a slots)

/-- Documents stored at one path, in slot insertion order
(`Object.values(this._docs[path])`). -/
def slotDocs (docs : DocsMap) (p : String) : List Document :=
  ((lookupA p docs).getD []).map Prod.snd

/-- First-occurrence deduplication; models collecting JS object keys
(`map[k] = true` for each, then `Object.keys`). -/
def dedupKeys (l : List String) : List String :=
  l.foldl (fun acc x => if x ∈ acc then acc else acc ++ [x]) []

namespace DriverMemory

/-- Modelled from the spec and the driver tests: `cleanUpQuery`
(src/storage2/query2.ts of this snapshot does not contain it; the test file
pins `cleanUpQuery({}) = {}`).  On the sparse `QueryOpts2` record, whose only
defaulted member (`isHead`) is already explicit in the Lean structure,
canonicalization is the identity. -/
def cleanUpQuery (q : QueryOpts2) : QueryOpts2 := q

/-- The per-path part of `documentQuery` (src/storage2/driverMemory.ts
lines 90-112): take the slot values of one path, optionally keep only the
head (stable sort by `historySortFn`, then first element), then filter by the
query selectors and drop expired docs. -/
def filterStage (q : QueryOpts2) (now : Int) (slots : Slots) : List Document :=
  let docsThisPath := slots.map Prod.snd
  let docsThisPath :=
    if q.isHead then (insertionSortB histLe docsThisPath).take 1 else docsThisPath
  docsThisPath.filter (fun d => queryMatchesDoc q d && docLiveAt d now)

/-- The path-enumeration part of `documentQuery`: one path when `query.path`
is given (nothing if absent from the map), else all paths in insertion
order. -/
def gatherStage (docs : DocsMap) (q : QueryOpts2) (now : Int) : List Document :=
  let pathsToConsider : DocsMap :=
    match q.path with
    | some p => (match lookupA p docs with | none => [] | some slots => [(p, slots)])
    | none => docs
  pathsToConsider.flatMap (fun pe => filterStage q now pe.2)

/-- The `limitBytes` loop of the memory driver (driverMemory.ts lines
120-130): accumulate `doc.content.length` (UTF-16 code units) and cut
strictly before the first document that would push the total over the
limit. -/
def limitBytesSlice (lim b : Nat) : List Document → List Document
  | [] => []
  | d :: rest =>
    let b2 := b + utf16Len d.content
    if lim < b2 then [] else d :: limitBytesSlice lim b2 rest

/-- Sort all gathered results by `historySortFn` and apply `limit`. -/
def sortLimitStage (q : QueryOpts2) (l : List Document) : List Document :=
  let r := insertionSortB histLe l
  match q.limit with
  | none => r
  | some n => r.take n

/-- `documentQuery` (src/storage2/driverMemory.ts lines 72-133). -/
def documentQuery (docs : DocsMap) (q0 : QueryOpts2) (now : Int) : List Document :=
  let q := cleanUpQuery q0
  if q.limit = some 0 ∨ q.limitBytes = some 0 then []
  else
    let results := sortLimitStage q (gatherStage docs q now)
    match q.limitBytes with
    | none => results
    | some lim => limitBytesSlice lim 0 results

/-- `pathQuery` (src/storage2/driverMemory.ts lines 42-71): run
`documentQuery` with `limit` removed but `limitBytes` kept ("note we let
limitBytes go through to the document query"), collect unique paths, sort
ascending, and re-apply `limit` (never `limitBytes`) to the paths. -/
def pathQuery (docs : DocsMap) (q0 : QueryOpts2) (now : Int) : List String :=
  let q := cleanUpQuery q0
  if q.limit = some 0 ∨ q.limitBytes = some 0 then []
  else
    let ds := documentQuery docs { q with limit := none } now
    let paths := insertionSortB strLe (dedupKeys (ds.map Document.path))
    match q.limit with
    | none => paths
    | some n => paths.take n

/-- `authors` (src/storage2/driverMemory.ts lines 29-41): authors of
non-expired documents, deduplicated and sorted ascending. -/
def authors (docs : DocsMap) (now : Int) : List String :=
  let as := docs.flatMap (fun pe => (pe.2.filter (fun ae => docLiveAt ae.2 now)).map Prod.fst)
  insertionSortB strLe (dedupKeys as)

/-- `upsertDocument` (src/storage2/driverMemory.ts lines 134-139):
unconditional write at `(doc.path, doc.author)`.  (`Object.freeze` is a
no-op in the pure model.) -/
def upsertDocument (docs : DocsMap) (d : Document) : DocsMap :=
  let slots := (lookupA d.path docs).getD []
  updateA d.path (updateA d.author d slots) docs

end DriverMemory

/-- Error thrown by `_assertNotClosed` (`StorageIsClosedError` in
src/util/types.ts); modelled as the error side of `Except`. -/
structure StorageIsClosedError where
deriving DecidableEq, Repr

/-- `WriteResult | ValidationError` of the write path. -/
inductive IngestResult
  | accepted
  | ignored
  | validationError (msg : String)
deriving DecidableEq, Repr

/-- The `DOCUMENT_WRITE` event published to `onWrite` after an accepted
write. -/
structure WriteEvent where
  isLocal : Bool
  isLatest : Bool
  document : Document
deriving DecidableEq, Repr

/-- Validator capability (`IValidator`, src/util/types.ts; the concrete es4
validator is not in the snapshot).  Checks are black-box boolean functions of
the document and the clock; `signDocument` returns `none` for a
`ValidationError`. -/
structure IValidator where
  format : String
  checkDocumentIsValid : Document → Int → Bool
  checkTimestampIsOk : Int → Option Int → Int → Bool
  signDocument : AuthorKeypair → Document → Option Document

/-- The `format → validator` lookup built by the `Storage2` constructor:
a JS object write per validator, so the last validator of a format wins. -/
def findValidator (vals : List IValidator) (fmt : String) : Option IValidator :=
  vals.foldl (fun acc v => if v.format = fmt then some v else acc) none

/-- Modelled from the spec: `sha256base32` (src/crypto is not in the
snapshot) — stands for the base32 SHA-256 digest of the content, modelled as
an injective tagging function; no claim depends on digest values. -/
def sha256base32 (content : String) : String := "bhash." ++ content

/-- The string JS builds when an array `[timestamp, signature]` is used with
a relational operator: `ToPrimitive` calls `Array.prototype.toString`, which
joins the elements with a comma.  `ingestDocument` compares these strings. -/
def tsSigArrayStr (ts : Int) (sig : String) : String := toString ts ++ "," ++ sig

/-- JS `x || null` on an optional number: `undefined` and `0` become null. -/
def jsOrNull (x : Option Int) : Option Int :=
  match x with
  | none => none
  | some v => if v = 0 then none else some v

/-- Mutable state of a `Storage2` bound to the memory driver: workspace,
the driver's `_docs`, the closed flag, and the effective clock (`_now`; see
the header note on time). -/
structure Storage2State where
  workspace : String
  docs : DocsMap
  isClosed : Bool
  now : Int
deriving DecidableEq, Repr

namespace Storage2

/-- `getDocument` without the closed check: head of
`documentQuery({path, isHead: true})`. -/
def getDocumentCore (docs : DocsMap) (now : Int) (p : String) : Option Document :=
  (DriverMemory.documentQuery docs { path := some p, isHead := true } now).head?

/-- `Storage2.authors`. -/
def authors (s : Storage2State) : Except StorageIsClosedError (List String) :=
  if s.isClosed then .error ⟨⟩ else .ok (DriverMemory.authors s.docs s.now)

/-- `Storage2.paths`. -/
def paths (s : Storage2State) (q : QueryOpts2) : Except StorageIsClosedError (List String) :=
  if s.isClosed then .error ⟨⟩ else .ok (DriverMemory.pathQuery s.docs q s.now)

/-- `Storage2.documents`. -/
def documents (s : Storage2State) (q : QueryOpts2) :
    Except StorageIsClosedError (List Document) :=
  if s.isClosed then .error ⟨⟩ else .ok (DriverMemory.documentQuery s.docs q s.now)

/-- `Storage2.contents`. -/
def contents (s : Storage2State) (q : QueryOpts2) : Except StorageIsClosedError (List String) :=
  if s.isClosed then .error ⟨⟩
  else .ok ((DriverMemory.documentQuery s.docs q s.now).map Document.content)

/-- `Storage2.getDocument`. -/
def getDocument (s : Storage2State) (p : String) :
    Except StorageIsClosedError (Option Document) :=
  if s.isClosed then .error ⟨⟩ else .ok (getDocumentCore s.docs s.now p)

/-- `Storage2.getContent`. -/
def getContent (s : Storage2State) (p : String) :
    Except StorageIsClosedError (Option String) :=
  if s.isClosed then .error ⟨⟩
  else .ok ((getDocumentCore s.docs s.now p).map Document.content)

/-- The accepted branch of `ingestDocument`: upsert, re-read the latest doc
at the path (`deepEqual` modelled by structural equality), publish the write
event. -/
def ingestAccept (s : Storage2State) (doc : Document) (isLocal : Bool) :
    IngestResult × Storage2State × Option WriteEvent :=
  let s2 := { s with docs := DriverMemory.upsertDocument s.docs doc }
  let latestDoc := getDocumentCore s2.docs s2.now doc.path
  let isLatest := decide (latestDoc = some doc)
  (.accepted, s2, some { isLocal := isLocal, isLatest := isLatest, document := doc })

/-- `Storage2.ingestDocument` (src/storage2/storage2.ts lines 91-157). -/
def ingestDocument (vals : List IValidator) (s : Storage2State) (doc : Document)
    (isLocal : Bool) :
    Except StorageIsClosedError (IngestResult × Storage2State × Option WriteEvent) :=
  if s.isClosed then .error ⟨⟩
  else
    let now := s.now
    match findValidator vals doc.format with
    | none => .ok (.validationError "ingestDocument: unrecognized format", s, none)
    | some validator =>
      if !(validator.checkDocumentIsValid doc now) then
        .ok (.validationError "ingestDocument: document check failed", s, none)
      else if doc.workspace ≠ s.workspace then
        .ok (.validationError "ingestDocument: cannot ingest doc from different workspace", s, none)
      else
        let existingSameAuthor :=
          (DriverMemory.documentQuery s.docs
            { path := some doc.path, author := some doc.author } now).head?
        let existingSameAuthor :=
          match existingSameAuthor with
          | none => none
          | some ex =>
            match ex.deleteAfter with
            | none => some ex
            | some da => if da < now then none else some ex
        match existingSameAuthor with
        | some ex =>
          if strLe (tsSigArrayStr doc.timestamp doc.signature)
              (tsSigArrayStr ex.timestamp ex.signature) then
            .ok (.ignored, s, none)
          else
            .ok (ingestAccept s doc isLocal)
        | none =>
          .ok (ingestAccept s doc isLocal)

/-- Result record of `set`: the returned `WriteResult | ValidationError`,
the state and event produced by the inner ingest, and the caller's
`docToSet` record as it is after the call (`set` assigns to
`docToSet.timestamp`). -/
structure SetOutcome where
  result : IngestResult
  state : Storage2State
  event : Option WriteEvent
  docToSetAfter : DocToSet
deriving DecidableEq, Repr

/-- The document `set` assembles before signing (src/storage2/storage2.ts
lines 181-213): fill `workspace`, `contentHash` and `author`, coerce
`deleteAfter || null`, then — when the timestamp is being defaulted — bump
the timestamp above the latest existing document at the path and shift
`deleteAfter` by the originally intended lifespan. -/
def assembleDocToSign (s : Storage2State) (keypair : AuthorKeypair) (docToSet2 : DocToSet)
    (shouldBumpTimestamp : Bool) : Document :=
  let doc : Document :=
    { format := docToSet2.format
      workspace := s.workspace
      path := docToSet2.path
      contentHash := sha256base32 docToSet2.content
      content := docToSet2.content
      author := keypair.address
      timestamp := docToSet2.timestamp.getD 0
      deleteAfter := jsOrNull docToSet2.deleteAfter
      signature := "" }
  if shouldBumpTimestamp then
    let lifespan : Option Int :=
      match doc.deleteAfter with
      | none => none
      | some da => some (da - doc.timestamp)
    let existingDocTimestamp : Int :=
      match getDocumentCore s.docs s.now doc.path with
      | none => 0
      | some ex => ex.timestamp
    let ts2 := max doc.timestamp (existingDocTimestamp + 1)
    let doc2 := { doc with timestamp := ts2 }
    match lifespan with
    | none => doc2
    | some l => { doc2 with deleteAfter := some (ts2 + l) }
  else doc

/-- `Storage2.set` (src/storage2/storage2.ts lines 158-222). -/
def set (vals : List IValidator) (s : Storage2State) (keypair : AuthorKeypair)
    (docToSet : DocToSet) : Except StorageIsClosedError SetOutcome :=
  if s.isClosed then .error ⟨⟩
  else
    let now := s.now
    match findValidator vals docToSet.format with
    | none => .ok ⟨.validationError "set: unrecognized format", s, none, docToSet⟩
    | some validator =>
      let shouldBumpTimestamp : Bool :=
        match docToSet.timestamp with
        | none => true
        | some t => decide (t = 0)
      let docToSet2 :=
        if shouldBumpTimestamp then { docToSet with timestamp := some now } else docToSet
      if !shouldBumpTimestamp &&
          !(validator.checkTimestampIsOk (docToSet2.timestamp.getD 0)
            (jsOrNull docToSet2.deleteAfter) now) then
        .ok ⟨.validationError "set: bad timestamp", s, none, docToSet2⟩
      else
        let doc := assembleDocToSign s keypair docToSet2 shouldBumpTimestamp
        match validator.signDocument keypair doc with
        | none => .ok ⟨.validationError "set: signature error", s, none, docToSet2⟩
        | some signedDoc =>
          match ingestDocument vals s signedDoc true with
          | .error e => .error e
          | .ok (r, s2, ev) => .ok ⟨r, s2, ev, docToSet2⟩

/-- `Storage2.close`: set the closed flag (the memory driver's `close` is a
no-op). -/
def close (s : Storage2State) : Storage2State := { s with isClosed := true }

/-- `Storage2.isClosed`: reports the flag and never raises. -/
def isClosedFn (s : Storage2State) : Bool := s.isClosed

end Storage2

/-- A freshly constructed, open store for one workspace with the memory
driver and a fixed test clock. -/
def emptyStorage (ws : String) (now : Int) : Storage2State :=
  { workspace := ws, docs := [], isClosed := false, now := now }

/-- Modelled from the spec: the es4 validator capability the store consumes
(src/validator/es4.ts is not in the snapshot).  Per §4.5 ("expired documents
are unobservable") and §6 (`checkDocumentIsValid(doc, now)`),
`checkDocumentIsValid` rejects a document whose `deleteAfter` has passed at
`now`; the real validator additionally verifies formats, paths and
signatures, which the claims quantify over separately.  `_checkTimestampIsOk`
is accepting; `signDocument` fills exactly the `signature` field ("signature
... computed by validator over all other fields", §3). -/
def es4Validator : IValidator :=
  { format := "es.4"
    checkDocumentIsValid := fun d now => docLiveAt d now
    checkTimestampIsOk := fun _ _ _ => true
    signDocument := fun kp d =>
      some { d with signature := "sig." ++ kp.address ++ "." ++ toString d.timestamp } }

/-- State of a synchronous `IStorage3`-style store (the StorageMinimal
family): documents, the config key-value side store, the closed flag, and
the effective clock. -/
structure Storage3State where
  workspace : String
  docs : DocsMap
  config : List (String × String)
  isClosed : Bool
  now : Int
deriving DecidableEq, Repr

namespace Storage3

/-- `StorageMinimal.getConfig` (src/storage/storageMinimal.ts lines 41-43):
read of the `_config` string map. -/
def getConfig (s : Storage3State) (key : String) : Option String := lookupA key s.config

/-- Modelled from the spec: `getContent(path)` of the synchronous store —
"the content of the latest document at path, or absent" (`StorageBase`,
which implements it, is not in the snapshot); latest = `(timestamp,
signature)`-max live document at the path. -/
def getContent (s : Storage3State) (p : String) : Option String :=
  let live := (slotDocs s.docs p).filter (fun d => docLiveAt d s.now)
  ((insertionSortB histLe live).head?).map Document.content

end Storage3

namespace Storage3ToAsync

/-- `Storage3ToAsync.getContent` (the sync-to-async facade): the body runs
`return this._storage.getConfig(path)` — a delegation to `getConfig`, not to
`getContent`.  The resolved value of the promise is the modelled result. -/
def getContent (s : Storage3State) (p : String) : Option String :=
  Storage3.getConfig s p

end Storage3ToAsync

/-- C1 failing input: the stored predecessor in slot `("/x", "a1")`. -/
def c1predecessor : Document :=
  { format := "es.4", workspace := "+w", path := "/x", contentHash := "h1", content := "c1"
    author := "a1", timestamp := 99, deleteAfter := none, signature := "sa" }

/-- C1 failing input: the incoming document for the same slot, with integer
timestamp 100 > 99. -/
def c1incoming : Document :=
  { format := "es.4", workspace := "+w", path := "/x", contentHash := "h2", content := "c2"
    author := "a1", timestamp := 100, deleteAfter := none, signature := "sb" }

/-- C1 failing input: open store holding the predecessor, test clock 1000. -/
def c1store : Storage2State :=
  { workspace := "+w", docs := [("/x", [("a1", c1predecessor)])], isClosed := false
    now := 1000 }

/-- C9 failing input: a store whose `/x` has a live document with content
"hello" and whose config side-store is empty. -/
def c9store : Storage3State :=
  { workspace := "+w"
    docs := [("/x", [("a1",
      { format := "es.4", workspace := "+w", path := "/x", contentHash := "h"
        content := "hello", author := "a1", timestamp := 10, deleteAfter := none
        signature := "s" })])]
    config := []
    isClosed := false
    now := 100 }

/-- The document produced by the C10 witness run. -/
def c10signedDoc : Document :=
  { format := "es.4", workspace := "+w", path := "/x", contentHash := "bhash.c"
    content := "c", author := "a1", timestamp := 100, deleteAfter := none
    signature := "sig.a1.100" }

/-- The full outcome of the C10 witness run of `set`. -/
def c10outcome : Storage2.SetOutcome :=
  { result := .accepted
    state := { workspace := "+w", docs := [("/x", [("a1", c10signedDoc)])]
               isClosed := false, now := 100 }
    event := some { isLocal := true, isLatest := true, document := c10signedDoc }
    docToSetAfter := { format := "es.4", path := "/x", content := "c"
                       timestamp := some 100, deleteAfter := none } }

/-- C7 counterexample input: one live document with 2-byte content at `/a`. -/
def c7store : Storage2State :=
  { workspace := "+w"
    docs := [("/a", [("a1",
      { format := "es.4", workspace := "+w", path := "/a", contentHash := "h"
        content := "aa", author := "a1", timestamp := 10, deleteAfter := none
        signature := "s" })])]
    isClosed := false
    now := 20 }

/-- `history` selector of the minimal store's query language. -/
inductive HistoryMode
  | latest
  | all
deriving DecidableEq, Repr

/-- Modelled from the spec: the `Query` record of the minimal store
(src/storage/query.ts is not in the snapshot); selectors per §4.3, with
`history` defaulting to `"latest"` through `cleanUpQuery`.  The field
`pathStartsWith` is the source's `pathPrefix` selector. -/
structure Query3 where
  path : Option String := none
  pathStartsWith : Option String := none
  timestamp : Option Int := none
  timestamp_gt : Option Int := none
  timestamp_lt : Option Int := none
  author : Option String := none
  contentLength : Option Nat := none
  contentLength_gt : Option Nat := none
  contentLength_lt : Option Nat := none
  history : Option HistoryMode := none
  limit : Option Nat := none
  limitBytes : Option Nat := none
deriving DecidableEq, Repr

/-- Modelled from the spec: `queryMatchesDoc` of the minimal store's query
language (§4.3; content lengths are UTF-8 byte lengths there). -/
def queryMatchesDoc3 (q : Query3) (d : Document) : Bool :=
  (match q.path with | none => true | some p => d.path == p) &&
  (match Query3.pathStartsWith q with | none => true | some pre => strStartsWith pre d.path) &&
  (match q.timestamp with | none => true | some t => decide (d.timestamp = t)) &&
  (match q.timestamp_gt with | none => true | some t => decide (t < d.timestamp)) &&
  (match q.timestamp_lt with | none => true | some t => decide (d.timestamp < t)) &&
  (match q.author with | none => true | some a => d.author == a) &&
  (match q.contentLength with | none => true | some n => utf8Len d.content == n) &&
  (match q.contentLength_gt with | none => true | some n => decide (n < utf8Len d.content)) &&
  (match q.contentLength_lt with | none => true | some n => decide (utf8Len d.content < n))

/-- Modelled from the spec: `sortPathAscAuthorAsc` (§4.4 path-then-author
order; src/storage/query.ts is not in the snapshot). -/
def pathAuthorLe (a b : Document) : Bool :=
  decide (strLt a.path b.path = true ∨ (a.path = b.path ∧ strLe a.author b.author = true))

/-- Cumulative UTF-8 content bytes of a document list. -/
def utf8Sum (l : List Document) : Nat := (l.map (fun d => utf8Len d.content)).sum

namespace StorageMinimal

/-- The per-path history fold and selector filter of
`StorageMinimal.documents` (src/storage/storageMinimal.ts lines 60-85):
`history: "latest"` keeps only the first document of the stable
`sortLatestFirst` sort of one path's slots, `history: "all"` keeps all; the
`history` default `"latest"` is what the (absent) `cleanUpQuery` supplies. -/
def gatherStage (st : Storage3State) (q : Query3) : List Document :=
  st.docs.flatMap (fun pe =>
    let docsThisPath := pe.2.map Prod.snd
    let docsThisPath :=
      match q.history.getD HistoryMode.latest with
      | .latest => (insertionSortB histLe docsThisPath).take 1
      | .all => docsThisPath
    docsThisPath.filter (fun d => queryMatchesDoc3 q d && docLiveAt d st.now))

/-- Sort by `sortPathAscAuthorAsc` and apply `limit`
(src/storage/storageMinimal.ts lines 87-93). -/
def matchedSorted (st : Storage3State) (q : Query3) : List Document :=
  let results := insertionSortB pathAuthorLe (gatherStage st q)
  match q.limit with
  | none => results
  | some n => results.take n

/-- The `limitBytes` loop of `StorageMinimal.documents` (lines 95-111):
accumulate UTF-8 byte lengths and cut strictly before the document that
would push the total over the limit — or, when an empty-content document
would leave the total exactly at the limit, cut before it too. -/
def limitBytesSliceUtf8 (lim b : Nat) : List Document → List Document
  | [] => []
  | d :: rest =>
    let len := utf8Len d.content
    let b2 := b + len
    if lim < b2 ∨ (b2 = lim ∧ len = 0) then []
    else d :: limitBytesSliceUtf8 lim b2 rest

/-- `StorageMinimal.documents` (src/storage/storageMinimal.ts lines
51-114). -/
def documents (st : Storage3State) (q : Query3) :
    Except StorageIsClosedError (List Document) :=
  if st.isClosed then .error ⟨⟩
  else if q.limit = some 0 ∨ q.limitBytes = some 0 then .ok []
  else
    let results := matchedSorted st q
    match q.limitBytes with
    | none => .ok results
    | some lim => .ok (limitBytesSliceUtf8 lim 0 results)

end StorageMinimal

/-- Document maker for the C6 inputs: one author, timestamp 10, not
ephemeral. -/
def c6doc (p c sg : String) : Document :=
  { format := "es.4", workspace := "+w", path := p, contentHash := "h", content := c
    author := "a1", timestamp := 10, deleteAfter := none, signature := sg }

/-- C6 counterexample input: live documents with contents "", "1", "22", ""
on four paths (history order = path order here), memory-driver store. -/
def c6store : Storage2State :=
  { workspace := "+w"
    docs := [("/a", [("a1", c6doc "/a" "" "s0")]), ("/b", [("a1", c6doc "/b" "1" "s1")]),
             ("/c", [("a1", c6doc "/c" "22" "s2")]), ("/d", [("a1", c6doc "/d" "" "s3")])]
    isClosed := false
    now := 20 }

/-- C6 second counterexample input: one document whose content "¢" is 2
UTF-8 bytes but 1 UTF-16 code unit. -/
def c6utfStore : Storage2State :=
  { workspace := "+w"
    docs := [("/u", [("a1", c6doc "/u" "¢" "s0")])]
    isClosed := false
    now := 20 }

/-- C6 q input for the minimal-store witness. -/
def c6query : Query3 := { limitBytes := some 3 }

/-- C6 minimal-store witness input: same four documents. -/
def c6smStore : Storage3State :=
  { workspace := "+w"
    docs := [("/a", [("a1", c6doc "/a" "" "s0")]), ("/b", [("a1", c6doc "/b" "1" "s1")]),
             ("/c", [("a1", c6doc "/c" "22" "s2")]), ("/d", [("a1", c6doc "/d" "" "s3")])]
    config := []
    isClosed := false
    now := 20 }

/-- The S3 ephemeral document: written at timestamp 100 with
`deleteAfter = 200`. -/
def c4doc : Document :=
  { format := "es.4", workspace := "+w", path := "/t!", contentHash := "h", content := "c"
    author := "a1", timestamp := 100, deleteAfter := some 200, signature := "s" }

/-- C5 witness store (scenario S4): pre-existing latest at `/x` with
timestamp 1000, test clock at 500 (< 1000). -/
def c5store : Storage2State :=
  { workspace := "+w"
    docs := [("/x", [("a2",
      { format := "es.4", workspace := "+w", path := "/x", contentHash := "h", content := "old"
        author := "a2", timestamp := 1000, deleteAfter := none, signature := "so" })])]
    isClosed := false
    now := 500 }

/-- C5 witness `docToSet`: omitted timestamp, intended lifespan of one day
(`deleteAfter = now + DAY`). -/
def c5docToSet : DocToSet :=
  { format := "es.4", path := "/x", content := "c", deleteAfter := some (500 + 86400000000) }

/-- C5 witness signed document: timestamp bumped to 1001, `deleteAfter`
shifted to `1001 + DAY`. -/
def c5signed : Document :=
  { format := "es.4", workspace := "+w", path := "/x", contentHash := "bhash.c"
    content := "c", author := "a1", timestamp := 1001, deleteAfter := some 86400001001
    signature := "sig.a1.1001" }

/-- C3 counterexample input: expired `(timestamp, signature)`-max document at
`/y` (timestamp 2, `deleteAfter` 10). -/
def c3head : Document :=
  { format := "es.4", workspace := "+w", path := "/y", contentHash := "h", content := "c"
    author := "aa", timestamp := 2, deleteAfter := some 10, signature := "zz" }

/-- C3 counterexample input: older live document at `/y` (timestamp 1). -/
def c3old : Document :=
  { format := "es.4", workspace := "+w", path := "/y", contentHash := "h", content := "c"
    author := "ab", timestamp := 1, deleteAfter := none, signature := "aa" }

/-- C3 counterexample store: both documents at `/y`, clock past the head's
expiry. -/
def c3store : Storage2State :=
  { workspace := "+w", docs := [("/y", [("aa", c3head), ("ab", c3old)])]
    isClosed := false, now := 20 }

/-- State after one `ingestDocument` call, events and results dropped
(ingest on an open store never throws, so the error branch is vacuous). -/
def applyIngest (vals : List IValidator) (st : Storage2State) (d : Document) :
    Storage2State :=
  match Storage2.ingestDocument vals st d false with
  | .ok (_, s2, _) => s2
  | .error _ => st

/-- Fold a list of ingests over a store, in list order. -/
def ingestList (vals : List IValidator) (st : Storage2State) (l : List Document) :
    Storage2State :=
  l.foldl (applyIngest vals) st

/-- The per-document part of the ingest acceptance test: a validator for the
format exists, accepts the document at `now`, and the workspace matches. -/
def docValidFor (vals : List IValidator) (ws : String) (now : Int) (d : Document) : Bool :=
  match findValidator vals d.format with
  | none => false
  | some v => v.checkDocumentIsValid d now && d.workspace == ws

/-- The slot predecessor the ingest comparison sees: the stored document if
it is live, nothing otherwise. -/
def livePred (now : Int) (cur : Option Document) : Option Document :=
  match cur with
  | none => none
  | some ex => if docLiveAt ex now then some ex else none

/-- The predecessor test of the ingest comparison: there is no live
predecessor, or the incoming stringified `(timestamp, signature)` key
strictly exceeds the predecessor's. -/
def predOk (now : Int) (cur : Option Document) (d : Document) : Prop :=
  match livePred now cur with
  | none => True
  | some ex => strLe (tsSigArrayStr d.timestamp d.signature)
      (tsSigArrayStr ex.timestamp ex.signature) = false

instance (now : Int) (cur : Option Document) (d : Document) : Decidable (predOk now cur d) := by
  unfold predOk
  rcases livePred now cur with _ | ex
  · exact isTrue trivial
  · exact instDecidableEqBool ..

/-- The effect of one ingest on one slot `(p, a)` as a pure function of the
slot's current value: a valid same-slot document replaces the current value
exactly when there is no live predecessor or its stringified `(timestamp,
signature)` key strictly exceeds the predecessor's. -/
def slotStep (vals : List IValidator) (ws : String) (now : Int) (p a : String)
    (cur : Option Document) (d : Document) : Option Document :=
  if d.path = p ∧ d.author = a ∧ docValidFor vals ws now d = true ∧ predOk now cur d
  then some d else cur

/-- Well-formedness of the driver map: path keys are distinct, author keys
within a path are distinct, and every stored document's `path`/`author`
fields agree with the keys it is stored under.  Holds for every store built
by `upsertDocument` from empty. -/
def WFDocs (docs : DocsMap) : Prop :=
  (docs.map Prod.fst).Nodup ∧
  ∀ pe ∈ docs, (pe.2.map Prod.fst).Nodup ∧
    ∀ ae ∈ pe.2, ae.2.path = pe.1 ∧ ae.2.author = ae.1

def c2docA : Document :=
  { format := "es.4", workspace := "+w", path := "/x", contentHash := "hA"
    content := "A", author := "a1", timestamp := 99, deleteAfter := none
    signature := "sa" }

def c2docB : Document :=
  { format := "es.4", workspace := "+w", path := "/x", contentHash := "hB"
    content := "B", author := "a1", timestamp := 100, deleteAfter := none
    signature := "sb" }

theorem charListLt_irrefl (a : List Char) : charListLt a a = false := by
  induction a with
  | nil => rfl
  | cons x xs ih => simp [charListLt, lt_irrefl, ih]

theorem charListLt_trichotomy (a b : List Char) (h1 : charListLt a b = false)
    (h2 : charListLt b a = false) : a = b := by
  induction a generalizing b with
  | nil => cases b with
    | nil => rfl
    | cons y ys => simp [charListLt] at h1
  | cons x xs ih =>
    cases b with
    | nil => simp [charListLt] at h2
    | cons y ys =>
      simp only [charListLt] at h1 h2
      rcases lt_trichotomy x y with hlt | heq | hgt
      · simp [hlt] at h1
      · subst heq
        simp [lt_irrefl] at h1 h2
        rw [ih ys h1 h2]
      · simp [hgt, asymm hgt] at h2

theorem charListLt_trans {a b c : List Char} (h1 : charListLt a b = true)
    (h2 : charListLt b c = true) : charListLt a c = true := by
  induction a generalizing b c with
  | nil =>
    cases c with
    | nil => cases b with
      | nil => simp [charListLt] at h1
      | cons y ys => simp [charListLt] at h2
    | cons z zs => simp [charListLt]
  | cons x xs ih =>
    cases b with
    | nil => simp [charListLt] at h1
    | cons y ys =>
      cases c with
      | nil => simp [charListLt] at h2
      | cons z zs =>
        simp only [charListLt] at h1 h2 ⊢
        rcases lt_trichotomy x y with hxy | hxy | hxy
        · rcases lt_trichotomy y z with hyz | hyz | hyz
          · simp [lt_trans hxy hyz]
          · subst hyz; simp [hxy]
          · simp [hyz, asymm hyz] at h2
        · subst hxy
          rcases lt_trichotomy x z with hxz | hxz | hxz
          · simp [hxz]
          · subst hxz
            rw [if_neg (lt_irrefl x), if_neg (lt_irrefl x)] at h1 h2 ⊢
            exact ih h1 h2
          · simp [hxz, asymm hxz] at h2
        · simp [hxy, asymm hxy] at h1

theorem charListLt_asymm {a b : List Char} (h : charListLt a b = true) :
    charListLt b a = false := by
  cases hba : charListLt b a with
  | false => rfl
  | true =>
    have := charListLt_trans h hba
    rw [charListLt_irrefl] at this
    exact Bool.noConfusion this

theorem charListLt_nle_trans {a b c : List Char} (h1 : charListLt b a = false)
    (h2 : charListLt c b = false) : charListLt c a = false := by
  cases hca : charListLt c a with
  | false => rfl
  | true =>
    exfalso
    cases hab : charListLt a b with
    | true =>
      have := charListLt_trans hca hab
      rw [h2] at this
      exact Bool.noConfusion this
    | false =>
      have heq := charListLt_trichotomy a b hab h1
      rw [heq, h2] at hca
      exact Bool.noConfusion hca

theorem string_eq_of_data_eq {a b : String} (h : a.data = b.data) : a = b := by
  cases a; cases b; exact congrArg String.mk h

theorem strLe_total (a b : String) : strLe a b = true ∨ strLe b a = true := by
  unfold strLe strLt
  cases h : charListLt b.data a.data with
  | false => left; rfl
  | true => right; rw [charListLt_asymm h]; rfl

theorem strLe_trans {a b c : String} (h1 : strLe a b = true) (h2 : strLe b c = true) :
    strLe a c = true := by
  unfold strLe strLt at h1 h2 ⊢
  rw [Bool.not_eq_true'] at h1 h2 ⊢
  exact charListLt_nle_trans h1 h2

theorem strLe_antisymm {a b : String} (h1 : strLe a b = true) (h2 : strLe b a = true) :
    a = b := by
  unfold strLe strLt at h1 h2
  rw [Bool.not_eq_true'] at h1 h2
  exact string_eq_of_data_eq (charListLt_trichotomy _ _ h2 h1)

theorem strLe_refl (a : String) : strLe a a = true := by
  unfold strLe strLt
  rw [charListLt_irrefl]
  rfl

theorem strLt_or_ge (a b : String) : strLt a b = true ∨ strLe b a = true := by
  unfold strLe
  cases h : strLt a b with
  | false => right; rfl
  | true => left; rfl

theorem strLt_false_of_le {a b : String} (h : strLe a b = true) : strLt b a = false := by
  unfold strLe at h
  exact Bool.not_eq_true' .. |>.mp h

theorem strLe_of_lt_false {a b : String} (h : strLt b a = false) : strLe a b = true := by
  unfold strLe
  rw [h]; rfl

theorem mem_orderedInsertB (le : α → α → Bool) (x : α) (l : List α) (y : α) :
    y ∈ orderedInsertB le x l ↔ y = x ∨ y ∈ l := by
  induction l with
  | nil => simp [orderedInsertB]
  | cons z zs ih =>
    by_cases h : le x z = true
    · simp [orderedInsertB, h]
    · simp only [orderedInsertB, if_neg h, List.mem_cons, ih]
      tauto

theorem mem_insertionSortB (le : α → α → Bool) (l : List α) (y : α) :
    y ∈ insertionSortB le l ↔ y ∈ l := by
  induction l with
  | nil => simp [insertionSortB]
  | cons x xs ih =>
    simp [insertionSortB, mem_orderedInsertB, ih]

theorem insertionSortB_eq_nil (le : α → α → Bool) (l : List α) :
    insertionSortB le l = [] ↔ l = [] := by
  cases l with
  | nil => simp [insertionSortB]
  | cons x xs =>
    simp only [insertionSortB]
    constructor
    · intro h
      have : x ∈ orderedInsertB le x (insertionSortB le xs) :=
        (mem_orderedInsertB ..).mpr (Or.inl rfl)
      rw [h] at this
      cases this
    · intro h; cases h

theorem pairwise_orderedInsertB (le : α → α → Bool)
    (htot : ∀ a b, le a b = true ∨ le b a = true)
    (htrans : ∀ a b c, le a b = true → le b c = true → le a c = true)
    (x : α) (l : List α) (hl : l.Pairwise (fun a b => le a b = true)) :
    (orderedInsertB le x l).Pairwise (fun a b => le a b = true) := by
  induction l with
  | nil => simp [orderedInsertB]
  | cons y ys ih =>
    rcases List.pairwise_cons.mp hl with ⟨hy, hys⟩
    by_cases h : le x y = true
    · rw [orderedInsertB, if_pos h]
      refine List.pairwise_cons.mpr ⟨?_, hl⟩
      intro z hz
      rcases List.mem_cons.mp hz with rfl | hz
      · exact h
      · exact htrans x y z h (hy z hz)
    · rw [orderedInsertB, if_neg h]
      refine List.pairwise_cons.mpr ⟨?_, ih hys⟩
      intro z hz
      rcases (mem_orderedInsertB ..).mp hz with rfl | hz
      · rcases htot y z with hyx | hxy
        · exact hyx
        · exact absurd hxy h
      · exact hy z hz

theorem pairwise_insertionSortB (le : α → α → Bool)
    (htot : ∀ a b, le a b = true ∨ le b a = true)
    (htrans : ∀ a b c, le a b = true → le b c = true → le a c = true)
    (l : List α) :
    (insertionSortB le l).Pairwise (fun a b => le a b = true) := by
  induction l with
  | nil => simp [insertionSortB]
  | cons x xs ih => exact pairwise_orderedInsertB le htot htrans x _ ih

/-- Head of the stable sort is a `le`-least element of the list. -/
theorem insertionSortB_head_min (le : α → α → Bool)
    (htot : ∀ a b, le a b = true ∨ le b a = true)
    (htrans : ∀ a b c, le a b = true → le b c = true → le a c = true)
    (l : List α) (h : α) (t : List α) (heq : insertionSortB le l = h :: t)
    (x : α) (hx : x ∈ l) : x = h ∨ le h x = true := by
  have hmem : x ∈ h :: t := by
    rw [← heq, mem_insertionSortB]; exact hx
  rcases List.mem_cons.mp hmem with rfl | hxt
  · left; rfl
  · right
    have hp := pairwise_insertionSortB le htot htrans l
    rw [heq] at hp
    exact (List.pairwise_cons.mp hp).1 x hxt

theorem orderedInsertB_perm (le : α → α → Bool) (x : α) (l : List α) :
    (orderedInsertB le x l).Perm (x :: l) := by
  induction l with
  | nil => exact List.Perm.refl _
  | cons y ys ih =>
    by_cases h : le x y = true
    · rw [orderedInsertB, if_pos h]
    · rw [orderedInsertB, if_neg h]
      exact (List.Perm.cons y ih).trans (List.Perm.swap x y ys)

theorem insertionSortB_perm (le : α → α → Bool) (l : List α) :
    (insertionSortB le l).Perm l := by
  induction l with
  | nil => exact List.Perm.refl _
  | cons x xs ih =>
    exact (orderedInsertB_perm le x (insertionSortB le xs)).trans (List.Perm.cons x ih)

theorem lookupA_updateA_self (k : String) (v : α) (l : List (String × α)) :
    lookupA k (updateA k v l) = some v := by
  induction l with
  | nil => simp [updateA, lookupA]
  | cons p rest ih =>
    obtain ⟨k2, v2⟩ := p
    by_cases h : k2 = k
    · simp [updateA, lookupA, h]
    · simp [updateA, lookupA, h, ih]

theorem lookupA_updateA_ne (k k3 : String) (v : α) (l : List (String × α))
    (hne : k3 ≠ k) : lookupA k3 (updateA k v l) = lookupA k3 l := by
  have hne2 : k ≠ k3 := Ne.symm hne
  induction l with
  | nil => simp [updateA, lookupA, hne2]
  | cons p rest ih =>
    obtain ⟨k2, v2⟩ := p
    by_cases h : k2 = k
    · subst h
      simp only [updateA, if_pos rfl, lookupA]
      rw [if_neg hne2, if_neg hne2]
    · simp [updateA, lookupA, h, ih]

/-- Keys of an association list after `updateA`. -/
theorem keys_updateA (k : String) (v : α) (l : List (String × α)) :
    (updateA k v l).map Prod.fst =
      if k ∈ l.map Prod.fst then l.map Prod.fst else l.map Prod.fst ++ [k] := by
  induction l with
  | nil => simp [updateA]
  | cons p rest ih =>
    obtain ⟨k2, v2⟩ := p
    by_cases h : k2 = k
    · subst h
      simp [updateA]
    · simp only [updateA, if_neg h, List.map_cons, List.mem_cons]
      rw [ih]
      by_cases hmem : k ∈ rest.map Prod.fst
      · simp [hmem]
      · rw [if_neg hmem]
        have : ¬ (k = k2 ∨ k ∈ rest.map Prod.fst) := by
          rintro (rfl | hk)
          · exact h rfl
          · exact hmem hk
        simp only [if_neg this]
        simp

theorem str_eq_of_nlt {a b : String} (h1 : strLt a b = false) (h2 : strLt b a = false) :
    a = b :=
  string_eq_of_data_eq (charListLt_trichotomy _ _ h1 h2)

theorem histLe_iff (a b : Document) : histLe a b = true ↔ HistLeP a b := by
  unfold histLe
  exact decide_eq_true_iff

theorem strLt_trans {a b c : String} (h1 : strLt a b = true) (h2 : strLt b c = true) :
    strLt a c = true :=
  charListLt_trans h1 h2

theorem strLt_irrefl_self (a : String) : strLt a a = false := by
  unfold strLt
  exact charListLt_irrefl _

theorem histLe_total (a b : Document) : histLe a b = true ∨ histLe b a = true := by
  rw [histLe_iff, histLe_iff]
  unfold HistLeP
  cases hp1 : strLt a.path b.path with
  | true => left; left; rfl
  | false =>
    cases hp2 : strLt b.path a.path with
    | true => right; left; rfl
    | false =>
      have heq : a.path = b.path := str_eq_of_nlt hp1 hp2
      rcases lt_trichotomy a.timestamp b.timestamp with ht | ht | ht
      · right; right; exact ⟨heq.symm, Or.inl ht⟩
      · rcases strLe_total b.signature a.signature with hs | hs
        · left; right; exact ⟨heq, Or.inr ⟨ht.symm, hs⟩⟩
        · right; right; exact ⟨heq.symm, Or.inr ⟨ht, hs⟩⟩
      · left; right; exact ⟨heq, Or.inl ht⟩

theorem histLe_trans (a b c : Document) (h1 : histLe a b = true) (h2 : histLe b c = true) :
    histLe a c = true := by
  rw [histLe_iff] at h1 h2 ⊢
  unfold HistLeP at h1 h2 ⊢
  rcases h1 with h1 | ⟨hp1, h1⟩
  · rcases h2 with h2 | ⟨hp2, _⟩
    · exact Or.inl (strLt_trans h1 h2)
    · left; rw [← hp2]; exact h1
  · rcases h2 with h2 | ⟨hp2, h2⟩
    · left; rw [hp1]; exact h2
    · right
      refine ⟨hp1.trans hp2, ?_⟩
      rcases h1 with h1 | ⟨ht1, hs1⟩
      · rcases h2 with h2 | ⟨ht2, _⟩
        · exact Or.inl (by omega)
        · left; omega
      · rcases h2 with h2 | ⟨ht2, hs2⟩
        · left; omega
        · right; exact ⟨by omega, strLe_trans hs2 hs1⟩

/-- For same-path documents, `histLe h d` means `d` is `(timestamp,
signature)`-below `h`. -/
theorem tsSigLe_of_histLe {h d : Document} (hpath : h.path = d.path)
    (hle : histLe h d = true) : TsSigLe d h := by
  rw [histLe_iff] at hle
  rcases hle with hlt | ⟨_, hrest⟩
  · exfalso
    rw [hpath, strLt, charListLt_irrefl] at hlt
    exact Bool.noConfusion hlt
  · exact hrest

theorem mem_dedupKeys_foldl (l : List String) (acc : List String) (x : String) :
    (x ∈ l.foldl (fun acc y => if y ∈ acc then acc else acc ++ [y]) acc) ↔
      x ∈ acc ∨ x ∈ l := by
  induction l generalizing acc with
  | nil => simp
  | cons z zs ih =>
    simp only [List.foldl_cons, List.mem_cons]
    by_cases h : z ∈ acc
    · rw [if_pos h, ih]
      constructor
      · rintro (hx | hx)
        · exact Or.inl hx
        · exact Or.inr (Or.inr hx)
      · rintro (hx | rfl | hx)
        · exact Or.inl hx
        · exact Or.inl h
        · exact Or.inr hx
    · rw [if_neg h, ih]
      simp only [List.mem_append, List.mem_singleton]
      tauto

theorem mem_dedupKeys (l : List String) (x : String) : x ∈ dedupKeys l ↔ x ∈ l := by
  unfold dedupKeys
  rw [mem_dedupKeys_foldl]
  simp

theorem nodup_dedupKeys_foldl (l : List String) (acc : List String) (hacc : acc.Nodup) :
    (l.foldl (fun acc y => if y ∈ acc then acc else acc ++ [y]) acc).Nodup := by
  induction l generalizing acc with
  | nil => simpa
  | cons z zs ih =>
    simp only [List.foldl_cons]
    by_cases h : z ∈ acc
    · rw [if_pos h]; exact ih acc hacc
    · rw [if_neg h]
      refine ih _ ?_
      simpa [List.nodup_append, hacc] using h

theorem nodup_dedupKeys (l : List String) : (dedupKeys l).Nodup :=
  nodup_dedupKeys_foldl l [] List.nodup_nil

/-- C1: the claim says the `(timestamp, signature)` comparison of
`ingestDocument` treats timestamps as integers, so an incoming document with
timestamp 100 must supersede a live predecessor with timestamp 99.  The code
compares the JS arrays `[timestamp, signature]`, which stringifies both sides
("100,sb" vs "99,sa") and compares lexicographically as strings; "100,sb" <=
"99,sa" holds ('1' < '9'), so the strictly newer document is Ignored and the
store keeps the predecessor.  This evaluates the embedded code at the failing
input. -/
theorem claim1_ingest_compares_stringified_pairs :
    c1predecessor.timestamp < c1incoming.timestamp ∧
    docLiveAt c1predecessor c1store.now = true ∧
    es4Validator.checkDocumentIsValid c1incoming c1store.now = true ∧
    c1incoming.workspace = c1store.workspace ∧
    slotLookup c1store.docs "/x" "a1" = some c1predecessor ∧
    strLe (tsSigArrayStr c1incoming.timestamp c1incoming.signature)
      (tsSigArrayStr c1predecessor.timestamp c1predecessor.signature) = true ∧
    Storage2.ingestDocument [es4Validator] c1store c1incoming false =
      .ok (.ignored, c1store, none) :=
  ⟨by decide, rfl, rfl, rfl, rfl, rfl, rfl⟩

/-- C9: the claim says the async facade's `getContent(p)` resolves to exactly
what the wrapped synchronous store's `getContent(p)` returns.  The facade
body delegates to `getConfig(path)` instead (a copy-paste slip: every other
facade method delegates to its namesake, and the class is documented as
making "all the methods of the original storage return promises"), so on a
store with a live document at `/x` but no config entry the facade resolves to
`none` while the sync store returns `some "hello"`. -/
theorem claim9_async_getContent_reads_config :
    Storage3ToAsync.getContent c9store "/x" = none ∧
    Storage3.getContent c9store "/x" = some "hello" ∧
    Storage3ToAsync.getContent c9store "/x" ≠ Storage3.getContent c9store "/x" := by
  refine ⟨rfl, rfl, ?_⟩
  intro h
  rw [show Storage3ToAsync.getContent c9store "/x" = none from rfl,
    show Storage3.getContent c9store "/x" = some "hello" from rfl] at h
  exact Option.noConfusion h

/-- C10: on an open store with a validator for the format, a `set` call whose
`docToSet.timestamp` is omitted or 0 mutates the caller's `docToSet` record,
overwriting exactly its `timestamp` field with the store's current `now`
(before the document to sign is assembled); when a nonzero timestamp is
supplied, `docToSet` is not mutated at all. -/
theorem claim10_set_mutates_docToSet (vals : List IValidator) (v : IValidator)
    (s : Storage2State) (kp : AuthorKeypair) (dts : DocToSet) (out : Storage2.SetOutcome)
    (hopen : s.isClosed = false)
    (hval : findValidator vals dts.format = some v)
    (hout : Storage2.set vals s kp dts = .ok out) :
    ((dts.timestamp = none ∨ dts.timestamp = some 0) →
      out.docToSetAfter = { dts with timestamp := some s.now }) ∧
    (∀ t, dts.timestamp = some t → t ≠ 0 → out.docToSetAfter = dts) := by
  simp only [Storage2.set, hopen, Bool.false_eq_true, if_false, hval] at hout
  constructor
  · intro hts
    have hb : (match dts.timestamp with
        | none => true
        | some t2 => decide (t2 = 0)) = true := by
      rcases hts with h | h <;> simp [h]
    rw [hb] at hout
    simp only [if_true, Bool.not_true, Bool.false_and, Bool.false_eq_true, if_false] at hout
    repeat' split at hout
    all_goals
      first
      | (injection hout with h2; rw [← h2])
      | (exact Except.noConfusion hout)
  · intro t hts ht0
    have hb : (match dts.timestamp with
        | none => true
        | some t2 => decide (t2 = 0)) = false := by
      rw [hts]; simp [ht0]
    rw [hb] at hout
    simp only [Bool.false_eq_true, if_false, Bool.not_false, Bool.true_and] at hout
    repeat' split at hout
    all_goals
      first
      | (injection hout with h2; rw [← h2])
      | (exact Except.noConfusion hout)

/-- C10 witness: a concrete `set` call with omitted timestamp; the theorem
applies and the caller's record comes back with `timestamp` overwritten by
`now = 100` and no other field changed. -/
theorem claim10_set_mutates_docToSet_witness :
    (emptyStorage "+w" 100).isClosed = false ∧
    findValidator [es4Validator] "es.4" = some es4Validator ∧
    Storage2.set [es4Validator] (emptyStorage "+w" 100) ⟨"a1", "sec"⟩
      { format := "es.4", path := "/x", content := "c" } = .ok c10outcome ∧
    c10outcome.docToSetAfter =
      { format := "es.4", path := "/x", content := "c", timestamp := some 100
        deleteAfter := none } := by
  refine ⟨rfl, rfl, rfl, ?_⟩
  have h := claim10_set_mutates_docToSet [es4Validator] es4Validator
    (emptyStorage "+w" 100) ⟨"a1", "sec"⟩
    { format := "es.4", path := "/x", content := "c" } c10outcome rfl rfl rfl
  exact h.1 (Or.inl rfl)

theorem ingestDocument_open_ne_error (vals : List IValidator) (s : Storage2State)
    (d : Document) (il : Bool) (e : StorageIsClosedError) (hopen : s.isClosed = false) :
    Storage2.ingestDocument vals s d il ≠ .error e := by
  unfold Storage2.ingestDocument
  rw [if_neg (by simp [hopen])]
  intro h
  dsimp only at h
  repeat' split at h
  all_goals exact Except.noConfusion h

theorem set_open_ne_error (vals : List IValidator) (s : Storage2State)
    (kp : AuthorKeypair) (dts : DocToSet) (e : StorageIsClosedError)
    (hopen : s.isClosed = false) :
    Storage2.set vals s kp dts ≠ .error e := by
  unfold Storage2.set
  rw [if_neg (by simp [hopen])]
  intro h
  dsimp only at h
  repeat' (first | split at h | dsimp only at h)
  all_goals
    first
    | exact Except.noConfusion h
    | exact absurd (by assumption) (ingestDocument_open_ne_error vals s _ true _ hopen)

/-- C8: after `close()` every read or write operation (`authors`, `paths`,
`documents`, `contents`, `getDocument`, `getContent`, `ingestDocument`,
`set`) fails with `StorageIsClosedError`, while `isClosed()` returns `true`
without erroring; on a store that has not been closed, no operation ever
produces that error. -/
theorem claim8_closed_store_behavior (vals : List IValidator) (s : Storage2State)
    (q : QueryOpts2) (p : String) (kp : AuthorKeypair) (dts : DocToSet) (d : Document)
    (il : Bool) (hopen : s.isClosed = false) :
    (Storage2.authors (Storage2.close s) = .error ⟨⟩ ∧
     Storage2.paths (Storage2.close s) q = .error ⟨⟩ ∧
     Storage2.documents (Storage2.close s) q = .error ⟨⟩ ∧
     Storage2.contents (Storage2.close s) q = .error ⟨⟩ ∧
     Storage2.getDocument (Storage2.close s) p = .error ⟨⟩ ∧
     Storage2.getContent (Storage2.close s) p = .error ⟨⟩ ∧
     Storage2.ingestDocument vals (Storage2.close s) d il = .error ⟨⟩ ∧
     Storage2.set vals (Storage2.close s) kp dts = .error ⟨⟩) ∧
    Storage2.isClosedFn (Storage2.close s) = true ∧
    ((∀ e, Storage2.authors s ≠ .error e) ∧
     (∀ e, Storage2.paths s q ≠ .error e) ∧
     (∀ e, Storage2.documents s q ≠ .error e) ∧
     (∀ e, Storage2.contents s q ≠ .error e) ∧
     (∀ e, Storage2.getDocument s p ≠ .error e) ∧
     (∀ e, Storage2.getContent s p ≠ .error e) ∧
     (∀ e, Storage2.ingestDocument vals s d il ≠ .error e) ∧
     (∀ e, Storage2.set vals s kp dts ≠ .error e)) := by
  refine ⟨⟨rfl, rfl, rfl, rfl, rfl, rfl, rfl, rfl⟩, rfl, ?_, ?_, ?_, ?_, ?_, ?_, ?_, ?_⟩
  · intro e h
    rw [Storage2.authors, if_neg (by simp [hopen])] at h
    exact Except.noConfusion h
  · intro e h
    rw [Storage2.paths, if_neg (by simp [hopen])] at h
    exact Except.noConfusion h
  · intro e h
    rw [Storage2.documents, if_neg (by simp [hopen])] at h
    exact Except.noConfusion h
  · intro e h
    rw [Storage2.contents, if_neg (by simp [hopen])] at h
    exact Except.noConfusion h
  · intro e h
    rw [Storage2.getDocument, if_neg (by simp [hopen])] at h
    exact Except.noConfusion h
  · intro e h
    rw [Storage2.getContent, if_neg (by simp [hopen])] at h
    exact Except.noConfusion h
  · intro e
    exact ingestDocument_open_ne_error vals s d il e hopen
  · intro e
    exact set_open_ne_error vals s kp dts e hopen

/-- C8 witness: the theorem applied to a concrete open store. -/
theorem claim8_closed_store_behavior_witness :
    (emptyStorage "+w" 100).isClosed = false ∧
    (Storage2.authors (Storage2.close (emptyStorage "+w" 100)) = .error ⟨⟩ ∧
      Storage2.isClosedFn (Storage2.close (emptyStorage "+w" 100)) = true ∧
      ∀ e, Storage2.authors (emptyStorage "+w" 100) ≠ .error e) := by
  have h := claim8_closed_store_behavior [es4Validator] (emptyStorage "+w" 100) {} "/x"
    ⟨"a1", "sec"⟩ { format := "es.4", path := "/x", content := "c" }
    { format := "es.4", workspace := "+w", path := "/x", contentHash := "h", content := "c"
      author := "a1", timestamp := 5, deleteAfter := none, signature := "s" } false rfl
  exact ⟨rfl, h.1.1, h.2.1, h.2.2.1⟩

/-- C7 counterexample: the claim says `paths(q)` is unaffected by
`limitBytes`; but `pathQuery` forwards `limitBytes` into the underlying
document query ("note we let limitBytes go through to the document query", and
the driver test suite pins this), so `paths({limitBytes: 1})` loses `/a`
while `paths({})` returns it. -/
theorem claim7_paths_limitBytes_counterexample :
    Storage2.paths c7store { limitBytes := some 1 } = .ok [] ∧
    Storage2.paths c7store {} = .ok ["/a"] ∧
    Storage2.paths c7store { limitBytes := some 1 } ≠ Storage2.paths c7store {} := by
  refine ⟨rfl, rfl, ?_⟩
  intro h
  rw [show Storage2.paths c7store { limitBytes := some 1 } = .ok [] from rfl,
    show Storage2.paths c7store {} = .ok ["/a"] from rfl] at h
  have := Except.ok.inj h
  exact List.noConfusion this

/-- C7 amended: `paths(q)` returns the ascending-sorted distinct paths of
the documents returned by the document query with `limit` removed but
`limitBytes` retained; `q.limit` caps the number of returned paths.
(`limitBytes` therefore does affect which paths are returned, contrary to the
original claim; see the counterexample.) -/
theorem claim7_paths_sorted_unique_limited (docs : DocsMap) (q : QueryOpts2) (now : Int) :
    (DriverMemory.pathQuery docs q now).Pairwise (fun a b => strLe a b = true) ∧
    (DriverMemory.pathQuery docs q now).Nodup ∧
    (∀ n, q.limit = some n → (DriverMemory.pathQuery docs q now).length ≤ n) ∧
    (∀ p ∈ DriverMemory.pathQuery docs q now,
      ∃ d ∈ DriverMemory.documentQuery docs { q with limit := none } now, d.path = p) ∧
    (q.limit = none → q.limitBytes ≠ some 0 →
      ∀ p, p ∈ DriverMemory.pathQuery docs q now ↔
        ∃ d ∈ DriverMemory.documentQuery docs { q with limit := none } now, d.path = p) := by
  have htot := strLe_total
  have htrans : ∀ a b c : String, strLe a b = true → strLe b c = true → strLe a c = true :=
    fun _ _ _ h1 h2 => strLe_trans h1 h2
  unfold DriverMemory.pathQuery
  simp only [DriverMemory.cleanUpQuery]
  by_cases hc : q.limit = some 0 ∨ q.limitBytes = some 0
  · rw [if_pos hc]
    refine ⟨List.Pairwise.nil, List.nodup_nil, by simp, by simp, ?_⟩
    intro hln hlb
    exfalso
    rcases hc with hc | hc
    · rw [hln] at hc; exact Option.noConfusion hc
    · exact hlb hc
  · rw [if_neg hc]
    have hsorted := pairwise_insertionSortB strLe htot htrans
      (dedupKeys ((DriverMemory.documentQuery docs { q with limit := none } now).map
        Document.path))
    have hnodup : (insertionSortB strLe (dedupKeys
        ((DriverMemory.documentQuery docs { q with limit := none } now).map
          Document.path))).Nodup :=
      ((insertionSortB_perm ..).nodup_iff).mpr (nodup_dedupKeys _)
    constructor
    · cases hl : q.limit with
      | none => simpa [hl] using hsorted
      | some n =>
        simp only [hl]
        exact hsorted.sublist (List.take_sublist ..)
    constructor
    · cases hl : q.limit with
      | none => simpa [hl] using hnodup
      | some n =>
        simp only [hl]
        exact hnodup.sublist (List.take_sublist ..)
    constructor
    · intro n hl
      simp only [hl]
      exact List.length_take_le ..
    constructor
    · intro p hp
      have hp2 : p ∈ insertionSortB strLe (dedupKeys
          ((DriverMemory.documentQuery docs { q with limit := none } now).map
            Document.path)) := by
        cases hl : q.limit with
        | none => simpa [hl] using hp
        | some n =>
          rw [hl] at hp
          exact List.take_subset _ _ hp
      rw [mem_insertionSortB, mem_dedupKeys, List.mem_map] at hp2
      obtain ⟨d, hd, hdp⟩ := hp2
      exact ⟨d, hd, hdp⟩
    · intro hln _ p
      simp only [hln]
      rw [mem_insertionSortB, mem_dedupKeys, List.mem_map]

/-- C7 witness: the amended theorem applied to the counterexample store with
a limit. -/
theorem claim7_paths_sorted_unique_limited_witness :
    (DriverMemory.pathQuery c7store.docs { limit := some 1 } 20).length ≤ 1 ∧
    (DriverMemory.pathQuery c7store.docs { limit := some 1 } 20).Nodup := by
  have h := claim7_paths_sorted_unique_limited c7store.docs { limit := some 1 } 20
  exact ⟨h.2.2.1 1 rfl, h.2.1⟩

namespace StorageMinimal

theorem limitBytesSliceUtf8_front (lim : Nat) : ∀ (b : Nat) (l : List Document),
    (limitBytesSliceUtf8 lim b l).IsPrefix l := by
  intro b l
  induction l generalizing b with
  | nil => exact List.prefix_refl _
  | cons d rest ih =>
    rw [limitBytesSliceUtf8]
    split
    · exact List.nil_prefix
    · exact List.cons_prefix_cons.mpr ⟨rfl, ih _⟩

theorem limitBytesSliceUtf8_sum (lim : Nat) : ∀ (b : Nat) (l : List Document),
    b ≤ lim → b + utf8Sum (limitBytesSliceUtf8 lim b l) ≤ lim := by
  intro b l
  induction l generalizing b with
  | nil => intro hb; simpa [limitBytesSliceUtf8, utf8Sum]
  | cons d rest ih =>
    intro hb
    rw [limitBytesSliceUtf8]
    split
    · simpa [utf8Sum]
    · rename_i hcond
      have hle : b + utf8Len d.content ≤ lim := by
        rcases Nat.lt_or_ge lim (b + utf8Len d.content) with h | h
        · exact absurd (Or.inl h) hcond
        · exact h
      have := ih (b + utf8Len d.content) hle
      simp only [utf8Sum, List.map_cons, List.sum_cons] at this ⊢
      omega

theorem limitBytesSliceUtf8_boundary (lim : Nat) : ∀ (b : Nat) (l : List Document),
    limitBytesSliceUtf8 lim b l = l ∨
      ∃ x rest, l = limitBytesSliceUtf8 lim b l ++ x :: rest ∧
        (lim < b + utf8Sum (limitBytesSliceUtf8 lim b l) + utf8Len x.content ∨
          (b + utf8Sum (limitBytesSliceUtf8 lim b l) + utf8Len x.content = lim ∧
            utf8Len x.content = 0)) := by
  intro b l
  induction l generalizing b with
  | nil => left; rfl
  | cons d rest ih =>
    rw [limitBytesSliceUtf8]
    split
    · rename_i hcond
      right
      refine ⟨d, rest, rfl, ?_⟩
      simp only [utf8Sum, List.map_nil, List.sum_nil, Nat.add_zero]
      omega
    · rename_i hcond
      rcases ih (b + utf8Len d.content) with h | ⟨x, rest2, heq, hcnd⟩
      · left; rw [h]
      · right
        refine ⟨x, rest2, ?_, ?_⟩
        · rw [List.cons_append, ← heq]
        · simp only [utf8Sum, List.map_cons, List.sum_cons] at hcnd ⊢
          omega

/-- C6 amended (for the minimal store): with `limitBytes = lim`, `documents`
returns a prefix of the sorted-and-`limit`-truncated matching documents whose
cumulative UTF-8 content bytes stay within `lim`; if anything was cut off,
the next document either would push the total over the limit, or is an
empty-content document that would leave the total exactly at the limit. -/
theorem claim6_documents_limitBytes (st : Storage3State) (q : Query3) (lim : Nat)
    (r : List Document)
    (hopen : st.isClosed = false)
    (hlb : q.limitBytes = some lim)
    (hout : StorageMinimal.documents st q = .ok r) :
    r.IsPrefix (StorageMinimal.matchedSorted st q) ∧
    utf8Sum r ≤ lim ∧
    (∀ x rest, StorageMinimal.matchedSorted st q = r ++ x :: rest →
      lim < utf8Sum r + utf8Len x.content ∨
        (utf8Sum r + utf8Len x.content = lim ∧ utf8Len x.content = 0)) := by
  rw [StorageMinimal.documents, if_neg (by simp [hopen])] at hout
  by_cases hc : q.limit = some 0 ∨ q.limitBytes = some 0
  · rw [if_pos hc] at hout
    have hr : r = [] := (Except.ok.inj hout).symm
    subst hr
    refine ⟨List.nil_prefix, by simp [utf8Sum], ?_⟩
    intro x rest heq
    rcases hc with hc | hc
    · exfalso
      unfold StorageMinimal.matchedSorted at heq
      rw [hc] at heq
      simp at heq
    · rw [hlb] at hc
      have hl0 : lim = 0 := by
        have := Option.some.inj hc
        omega
      subst hl0
      simp only [utf8Sum, List.map_nil, List.sum_nil, Nat.zero_add]
      omega
  · rw [if_neg hc] at hout
    simp only [hlb] at hout
    have hr : r = StorageMinimal.limitBytesSliceUtf8 lim 0 (StorageMinimal.matchedSorted st q) :=
      (Except.ok.inj hout).symm
    subst hr
    refine ⟨limitBytesSliceUtf8_front lim 0 _, ?_, ?_⟩
    · have := limitBytesSliceUtf8_sum lim 0 (StorageMinimal.matchedSorted st q) (Nat.zero_le _)
      omega
    · intro x rest heq
      rcases limitBytesSliceUtf8_boundary lim 0 (StorageMinimal.matchedSorted st q) with
        h | ⟨x2, rest2, heq2, hcnd⟩
      · exfalso
        rw [h] at heq
        have : (StorageMinimal.matchedSorted st q).length =
            (StorageMinimal.matchedSorted st q).length + (x :: rest).length := by
          conv_lhs => rw [heq]
          simp
        simp at this
      · have hcomb := heq.symm.trans heq2
        have hx : x = x2 := (List.cons.inj (List.append_cancel_left hcomb)).1
        subst hx
        simpa using hcnd

end StorageMinimal

/-- C6 counterexample: on the memory-driver store the claim fails twice.
With `limitBytes = 3` and contents `["", "1", "22", ""]`, `documents`
returns all four documents: the final empty-content document, whose
inclusion leaves the total exactly at the limit, is NOT excluded (the
driver's own test suite pins this: `'' + '1' + '22' + '' = 3 bytes`).  And
the driver accumulates JS `content.length` (UTF-16 code units), not UTF-8
bytes: a 2-UTF-8-byte document is returned under `limitBytes = 1`. -/
theorem claim6_limitBytes_counterexample :
    Storage2.documents c6store { limitBytes := some 3 } =
      .ok [c6doc "/a" "" "s0", c6doc "/b" "1" "s1", c6doc "/c" "22" "s2",
        c6doc "/d" "" "s3"] ∧
    (c6doc "/d" "" "s3").content = "" ∧
    utf8Sum [c6doc "/a" "" "s0", c6doc "/b" "1" "s1", c6doc "/c" "22" "s2",
      c6doc "/d" "" "s3"] = 3 ∧
    Storage2.documents c6utfStore { limitBytes := some 1 } = .ok [c6doc "/u" "¢" "s0"] ∧
    utf8Len (c6doc "/u" "¢" "s0").content = 2 :=
  ⟨rfl, rfl, rfl, rfl, rfl⟩

/-- C6 witness: on the minimal store the amended theorem applies; the
trailing empty document at the exact limit IS excluded there, and the kept
prefix's UTF-8 total stays within the limit. -/
theorem claim6_documents_limitBytes_witness :
    c6smStore.isClosed = false ∧
    c6query.limitBytes = some 3 ∧
    StorageMinimal.documents c6smStore c6query =
      .ok [c6doc "/a" "" "s0", c6doc "/b" "1" "s1", c6doc "/c" "22" "s2"] ∧
    utf8Sum [c6doc "/a" "" "s0", c6doc "/b" "1" "s1", c6doc "/c" "22" "s2"] ≤ 3 := by
  refine ⟨rfl, rfl, rfl, ?_⟩
  have h := StorageMinimal.claim6_documents_limitBytes c6smStore c6query 3
    [c6doc "/a" "" "s0", c6doc "/b" "1" "s1", c6doc "/c" "22" "s2"] rfl rfl rfl
  exact h.2.1

theorem limitBytesSlice_front (lim : Nat) : ∀ (b : Nat) (l : List Document),
    (DriverMemory.limitBytesSlice lim b l).IsPrefix l := by
  intro b l
  induction l generalizing b with
  | nil => exact List.prefix_refl _
  | cons d rest ih =>
    rw [DriverMemory.limitBytesSlice]
    split
    · exact List.nil_prefix
    · exact List.cons_prefix_cons.mpr ⟨rfl, ih _⟩

theorem mem_filterStage {q : QueryOpts2} {now : Int} {slots : Slots} {d : Document}
    (hd : d ∈ DriverMemory.filterStage q now slots) :
    queryMatchesDoc q d = true ∧ docLiveAt d now = true := by
  unfold DriverMemory.filterStage at hd
  have := (List.mem_filter.mp hd).2
  simpa using this

theorem mem_filterStage_source {q : QueryOpts2} {now : Int} {slots : Slots} {d : Document}
    (hd : d ∈ DriverMemory.filterStage q now slots) : d ∈ slots.map Prod.snd := by
  unfold DriverMemory.filterStage at hd
  have h1 := (List.mem_filter.mp hd).1
  by_cases hh : q.isHead = true
  · rw [if_pos hh] at h1
    have := List.take_subset 1 _ h1
    rw [mem_insertionSortB] at this
    exact this
  · rw [if_neg hh] at h1
    exact h1

theorem mem_sortLimitStage {q : QueryOpts2} {l : List Document} {d : Document}
    (hd : d ∈ DriverMemory.sortLimitStage q l) : d ∈ l := by
  unfold DriverMemory.sortLimitStage at hd
  rcases hq : q.limit with _ | n
  · rw [hq] at hd
    exact (mem_insertionSortB ..).mp hd
  · rw [hq] at hd
    exact (mem_insertionSortB ..).mp (List.take_subset n _ hd)

theorem mem_gatherStage {docs : DocsMap} {q : QueryOpts2} {now : Int} {d : Document}
    (hd : d ∈ DriverMemory.gatherStage docs q now) :
    ∃ pe : String × Slots, d ∈ DriverMemory.filterStage q now pe.2 := by
  unfold DriverMemory.gatherStage at hd
  obtain ⟨pe, _, hpe2⟩ := List.mem_flatMap.mp hd
  exact ⟨pe, hpe2⟩

/-- Every document a memory-driver `documentQuery` returns passed the
liveness filter. -/
theorem documentQuery_live {docs : DocsMap} {q : QueryOpts2} {now : Int} {d : Document}
    (hd : d ∈ DriverMemory.documentQuery docs q now) : docLiveAt d now = true := by
  unfold DriverMemory.documentQuery at hd
  dsimp only at hd
  split at hd
  · cases hd
  · have hd2 : d ∈ DriverMemory.sortLimitStage (DriverMemory.cleanUpQuery q)
        (DriverMemory.gatherStage docs (DriverMemory.cleanUpQuery q) now) := by
      rcases hlb : (DriverMemory.cleanUpQuery q).limitBytes with _ | lim
      · rw [hlb] at hd
        exact hd
      · rw [hlb] at hd
        exact (limitBytesSlice_front lim 0 _).sublist.subset hd
    obtain ⟨pe, hpe⟩ := mem_gatherStage (mem_sortLimitStage hd2)
    exact (mem_filterStage hpe).2

/-- C4: ephemeral documents are visible exactly while the clock has not
passed `deleteAfter`.  With a single accepted ephemeral document stored at a
path, `getDocument` returns it iff `now ≤ deleteAfter` and returns nothing
once `deleteAfter < now`; in general no `documentQuery` result is expired
(`deleteAfter` non-null and earlier than `now`), and every author returned by
`authors()` owns at least one live document. -/
theorem claim4_ephemeral_expiry (s : Storage2State) (p : String) (doc : Document)
    (da : Int) (q : QueryOpts2)
    (hopen : s.isClosed = false)
    (hslot : lookupA p s.docs = some [(doc.author, doc)])
    (hpath : doc.path = p)
    (hda : doc.deleteAfter = some da) :
    (s.now ≤ da → Storage2.getDocument s p = .ok (some doc)) ∧
    (da < s.now → Storage2.getDocument s p = .ok none) ∧
    (∀ d ∈ DriverMemory.documentQuery s.docs q s.now, docLiveAt d s.now = true) ∧
    (∀ a ∈ DriverMemory.authors s.docs s.now,
      ∃ pe ∈ s.docs, ∃ ae ∈ pe.2, ae.1 = a ∧ docLiveAt ae.2 s.now = true) := by
  refine ⟨?_, ?_, ?_, ?_⟩
  · intro hle
    rw [Storage2.getDocument, if_neg (by simp [hopen])]
    unfold Storage2.getDocumentCore DriverMemory.documentQuery DriverMemory.cleanUpQuery
    simp only [DriverMemory.gatherStage, DriverMemory.sortLimitStage,
      DriverMemory.filterStage, hslot]
    simp [queryMatchesDoc, docLiveAt, hda, hpath, hle, insertionSortB, orderedInsertB]
  · intro hlt
    rw [Storage2.getDocument, if_neg (by simp [hopen])]
    unfold Storage2.getDocumentCore DriverMemory.documentQuery DriverMemory.cleanUpQuery
    simp only [DriverMemory.gatherStage, DriverMemory.sortLimitStage,
      DriverMemory.filterStage, hslot]
    simp [queryMatchesDoc, docLiveAt, hda, hpath, not_le_of_lt hlt,
      insertionSortB, orderedInsertB]
  · intro d hd
    exact documentQuery_live hd
  · intro a ha
    unfold DriverMemory.authors at ha
    rw [mem_insertionSortB, mem_dedupKeys] at ha
    obtain ⟨pe, hpe, hmem⟩ := List.mem_flatMap.mp ha
    obtain ⟨ae, hae, haea⟩ := List.mem_map.mp hmem
    have hfil := List.mem_filter.mp hae
    exact ⟨pe, hpe, ae, hfil.1, haea, hfil.2⟩

/-- C4 witness: the S3 scenario — ephemeral doc with `deleteAfter = 200` at
`/t!`; visible with the clock at 150, gone at 250. -/
theorem claim4_ephemeral_expiry_witness :
    Storage2.getDocument
      { workspace := "+w", docs := [("/t!", [("a1", c4doc)])], isClosed := false, now := 150 }
      "/t!" = .ok (some c4doc) ∧
    Storage2.getDocument
      { workspace := "+w", docs := [("/t!", [("a1", c4doc)])], isClosed := false, now := 250 }
      "/t!" = .ok none := by
  have h150 := claim4_ephemeral_expiry
    { workspace := "+w", docs := [("/t!", [("a1", c4doc)])], isClosed := false, now := 150 }
    "/t!" c4doc 200 {} rfl rfl rfl rfl
  have h250 := claim4_ephemeral_expiry
    { workspace := "+w", docs := [("/t!", [("a1", c4doc)])], isClosed := false, now := 250 }
    "/t!" c4doc 200 {} rfl rfl rfl rfl
  exact ⟨h150.1 (by decide), h250.2.1 (by decide)⟩

/-- C5: when `set` is called with an omitted (or zero) timestamp on an open
store, the document handed to the validator for signing carries
`timestamp = max(now, latestTimestamp + 1)` — `latestTimestamp` being the
timestamp of the latest existing document at the path (0 if none) — and,
when `docToSet.deleteAfter` is set, `deleteAfter = timestamp + (deleteAfter -
now)`, preserving the intended lifespan; `set` then signs exactly that
document and forwards it to `ingestDocument`. -/
theorem claim5_set_bumps_and_preserves_lifespan (vals : List IValidator) (v : IValidator)
    (s : Storage2State) (kp : AuthorKeypair) (dts : DocToSet) (signedDoc : Document)
    (hopen : s.isClosed = false)
    (hval : findValidator vals dts.format = some v)
    (hbump : dts.timestamp = none ∨ dts.timestamp = some 0)
    (hsig : v.signDocument kp
      (Storage2.assembleDocToSign s kp { dts with timestamp := some s.now } true) =
      some signedDoc)
    (hpres : signedDoc =
      { Storage2.assembleDocToSign s kp { dts with timestamp := some s.now } true with
        signature := signedDoc.signature }) :
    signedDoc.timestamp = max s.now
      ((match Storage2.getDocumentCore s.docs s.now dts.path with
        | none => 0
        | some ex => ex.timestamp) + 1) ∧
    (∀ da, dts.deleteAfter = some da → da ≠ 0 →
      signedDoc.deleteAfter = some (signedDoc.timestamp + (da - s.now))) ∧
    ((dts.deleteAfter = none ∨ dts.deleteAfter = some 0) → signedDoc.deleteAfter = none) ∧
    Storage2.set vals s kp dts =
      (Storage2.ingestDocument vals s signedDoc true).map
        (fun x => ⟨x.1, x.2.1, x.2.2, { dts with timestamp := some s.now }⟩) := by
  have htsA : (Storage2.assembleDocToSign s kp { dts with timestamp := some s.now }
      true).timestamp = max s.now
        ((match Storage2.getDocumentCore s.docs s.now dts.path with
          | none => 0
          | some ex => ex.timestamp) + 1) := by
    unfold Storage2.assembleDocToSign
    dsimp only
    rw [if_pos rfl]
    split <;> rfl
  have hdaA : ∀ da : Int, dts.deleteAfter = some da → da ≠ 0 →
      (Storage2.assembleDocToSign s kp { dts with timestamp := some s.now }
        true).deleteAfter = some
          ((Storage2.assembleDocToSign s kp { dts with timestamp := some s.now }
            true).timestamp + (da - s.now)) := by
    intro da hda hda0
    rw [htsA]
    unfold Storage2.assembleDocToSign
    dsimp only
    rw [if_pos rfl,
      show jsOrNull (DocToSet.deleteAfter { dts with timestamp := some s.now }) =
        some da by simp [jsOrNull, hda, hda0]]
    rfl
  have hnoneA : (dts.deleteAfter = none ∨ dts.deleteAfter = some 0) →
      (Storage2.assembleDocToSign s kp { dts with timestamp := some s.now }
        true).deleteAfter = none := by
    intro hcase
    unfold Storage2.assembleDocToSign
    dsimp only
    rw [if_pos rfl,
      show jsOrNull (DocToSet.deleteAfter { dts with timestamp := some s.now }) =
        none by rcases hcase with h | h <;> simp [jsOrNull, h]]
  refine ⟨?_, ?_, ?_, ?_⟩
  · rw [hpres]; exact htsA
  · intro da hda hda0
    rw [hpres]
    exact hdaA da hda hda0
  · intro hcase
    rw [hpres]
    exact hnoneA hcase
  · have hb : (match dts.timestamp with
        | none => true
        | some t2 => decide (t2 = 0)) = true := by
      rcases hbump with h | h <;> simp [h]
    rw [Storage2.set, if_neg (by simp [hopen])]
    dsimp only
    rw [hval]
    dsimp only
    rw [hb]
    simp only [if_true, Bool.not_true, Bool.false_and, Bool.false_eq_true, if_false]
    rw [hsig]
    rcases hi : Storage2.ingestDocument vals s signedDoc true with e | ⟨r, s2, ev⟩ <;>
      simp [hi, Except.map]

/-- C5 witness: scenario S4 run through the theorem — new timestamp
`max(500, 1000+1) = 1001` and `deleteAfter = 1001 + DAY`. -/
theorem claim5_set_bumps_and_preserves_lifespan_witness :
    c5store.isClosed = false ∧
    c5signed.timestamp = 1001 ∧
    c5signed.deleteAfter = some (1001 + 86400000000) := by
  have h := claim5_set_bumps_and_preserves_lifespan [es4Validator] es4Validator
    c5store ⟨"a1", "sec"⟩ c5docToSet c5signed rfl rfl (Or.inl rfl) rfl rfl
  refine ⟨rfl, ?_, ?_⟩
  · rw [h.1]; rfl
  · rw [h.2.1 (500 + 86400000000) rfl (by decide)]
    rw [h.1]
    rfl

/-- C3 counterexample: the claim says that when the `(timestamp,
signature)`-max document at a path is expired but an older live document
exists there, `getDocument` returns the older live document.  The code picks
the head among ALL documents at the path (expired ones included) and only
then filters expired docs, so it returns nothing. -/
theorem claim3_expired_head_hides_older_live_doc :
    Storage2.getDocument c3store "/y" = .ok none ∧
    c3old ∈ slotDocs c3store.docs "/y" ∧
    docLiveAt c3old c3store.now = true ∧
    docLiveAt c3head c3store.now = false ∧
    TsSigLe c3old c3head ∧
    Storage2.getDocument c3store "/y" ≠ .ok (some c3old) := by
  refine ⟨rfl, by decide, rfl, rfl, by decide, ?_⟩
  intro h
  rw [show Storage2.getDocument c3store "/y" = .ok none from rfl] at h
  exact Option.noConfusion (Except.ok.inj h)

/-- `TsSigLe` is reflexive. -/
theorem tsSigLe_refl (d : Document) : TsSigLe d d := Or.inr ⟨rfl, strLe_refl _⟩

/-- C3 amended: `getDocument(p)` computes the `(timestamp,
signature)`-maximum among ALL documents stored at `p` — expired ones
included — and returns it exactly when it is live; when that maximum is
expired, `getDocument` returns nothing even if older live documents exist at
`p`. -/
theorem claim3_getDocument_latest (s : Storage2State) (p : String)
    (hopen : s.isClosed = false)
    (hpaths : ∀ d ∈ slotDocs s.docs p, d.path = p) :
    Storage2.getDocument s p = .ok
      (match (insertionSortB histLe (slotDocs s.docs p)).head? with
       | none => none
       | some h => if docLiveAt h s.now then some h else none) ∧
    (∀ h t, insertionSortB histLe (slotDocs s.docs p) = h :: t →
      h ∈ slotDocs s.docs p ∧ ∀ d ∈ slotDocs s.docs p, TsSigLe d h) := by
  constructor
  · rw [Storage2.getDocument, if_neg (by simp [hopen])]
    unfold Storage2.getDocumentCore DriverMemory.documentQuery DriverMemory.cleanUpQuery
    dsimp only
    rw [if_neg (by simp)]
    unfold DriverMemory.gatherStage DriverMemory.filterStage
    dsimp only
    cases hl : lookupA p s.docs with
    | none =>
      have hsd : slotDocs s.docs p = [] := by rw [slotDocs, hl]; rfl
      rw [hsd]
      simp [DriverMemory.sortLimitStage, insertionSortB]
    | some slots =>
      have hsd : slotDocs s.docs p = slots.map Prod.snd := by rw [slotDocs, hl]; rfl
      rw [hsd]
      simp only [List.flatMap_cons, List.flatMap_nil, List.append_nil, if_true]
      cases hsort : insertionSortB histLe (slots.map Prod.snd) with
      | nil =>
        simp [hsort, DriverMemory.sortLimitStage, insertionSortB]
      | cons h t =>
        have hmem : h ∈ slots.map Prod.snd := by
          have : h ∈ insertionSortB histLe (slots.map Prod.snd) := by
            rw [hsort]; exact List.mem_cons_self ..
          exact (mem_insertionSortB ..).mp this
        have hph : h.path = p := hpaths h (hsd ▸ hmem)
        have hq : queryMatchesDoc { path := some p, isHead := true } h = true := by
          simp [queryMatchesDoc, hph]
        simp only [List.take_succ_cons, List.take_zero, List.filter_cons, List.filter_nil,
          hq, Bool.true_and]
        cases hlive : docLiveAt h s.now with
        | true =>
          simp [DriverMemory.sortLimitStage, insertionSortB, orderedInsertB, hlive]
        | false =>
          simp [DriverMemory.sortLimitStage, insertionSortB, hlive]
  · intro h t hsort
    have hmemh : h ∈ slotDocs s.docs p := by
      have : h ∈ insertionSortB histLe (slotDocs s.docs p) := by
        rw [hsort]; exact List.mem_cons_self ..
      exact (mem_insertionSortB ..).mp this
    refine ⟨hmemh, ?_⟩
    intro d hd
    rcases insertionSortB_head_min histLe histLe_total
      (fun a b c h1 h2 => histLe_trans a b c h1 h2) _ h t hsort d hd with rfl | hle
    · exact tsSigLe_refl d
    · exact tsSigLe_of_histLe ((hpaths h hmemh).trans (hpaths d hd).symm) hle

/-- C3 witness: the amended theorem applied at the counterexample path with
the clock before the head's expiry — the (expired-at-20, live-at-5) head is
returned at clock 5. -/
theorem claim3_getDocument_latest_witness :
    Storage2.getDocument { c3store with now := 5 } "/y" = .ok (some c3head) ∧
    Storage2.getDocument c3store "/y" = .ok none := by
  have h5 := claim3_getDocument_latest { c3store with now := 5 } "/y" rfl (by decide)
  have h20 := claim3_getDocument_latest c3store "/y" rfl (by decide)
  constructor
  · rw [h5.1]; rfl
  · rw [h20.1]; rfl

theorem lookupA_mem {k : String} {v : α} {l : List (String × α)}
    (h : lookupA k l = some v) : (k, v) ∈ l := by
  induction l with
  | nil => cases h
  | cons p rest ih =>
    obtain ⟨k2, v2⟩ := p
    by_cases hk : k2 = k
    · subst hk
      rw [lookupA, if_pos rfl] at h
      have := Option.some.inj h
      subst this
      exact List.mem_cons_self ..
    · rw [lookupA, if_neg hk] at h
      exact List.mem_cons_of_mem _ (ih h)

theorem mem_updateA {k : String} {v : α} {l : List (String × α)} {pe : String × α}
    (h : pe ∈ updateA k v l) : pe = (k, v) ∨ pe ∈ l := by
  induction l with
  | nil =>
    rw [updateA] at h
    rcases List.mem_singleton.mp h with rfl
    exact Or.inl rfl
  | cons q rest ih =>
    obtain ⟨k2, v2⟩ := q
    by_cases hk : k2 = k
    · subst hk
      rw [updateA, if_pos rfl] at h
      rcases List.mem_cons.mp h with rfl | hmem
      · exact Or.inl rfl
      · exact Or.inr (List.mem_cons_of_mem _ hmem)
    · rw [updateA, if_neg hk] at h
      rcases List.mem_cons.mp h with rfl | hmem
      · exact Or.inr (List.mem_cons_self ..)
      · rcases ih hmem with h2 | h2
        · exact Or.inl h2
        · exact Or.inr (List.mem_cons_of_mem _ h2)

theorem nodup_keys_updateA {k : String} {v : α} {l : List (String × α)}
    (h : (l.map Prod.fst).Nodup) : ((updateA k v l).map Prod.fst).Nodup := by
  rw [keys_updateA]
  by_cases hmem : k ∈ l.map Prod.fst
  · rw [if_pos hmem]; exact h
  · rw [if_neg hmem]
    simp [List.nodup_append, h, hmem]

theorem slotLookup_upsert (docs : DocsMap) (d : Document) (p a : String) :
    slotLookup (DriverMemory.upsertDocument docs d) p a =
      if d.path = p ∧ d.author = a then some d else slotLookup docs p a := by
  unfold DriverMemory.upsertDocument slotLookup
  dsimp only
  by_cases hp : d.path = p
  · subst hp
    rw [lookupA_updateA_self]
    by_cases ha : d.author = a
    · subst ha
      rw [if_pos ⟨rfl, rfl⟩]
      simp [lookupA_updateA_self]
    · rw [if_neg (by rintro ⟨_, h⟩; exact ha h)]
      dsimp only [Option.bind]
      rw [lookupA_updateA_ne _ _ _ _ (fun h => ha h.symm)]
      cases hl : lookupA d.path docs with
      | none => rfl
      | some slots => rfl
  · rw [lookupA_updateA_ne _ _ _ _ (fun h => hp h.symm)]
    rw [if_neg (by rintro ⟨h, _⟩; exact hp h)]

theorem WFDocs_empty : WFDocs [] := ⟨List.nodup_nil, by intro pe h; cases h⟩

theorem WFDocs_upsert {docs : DocsMap} (d : Document) (hwf : WFDocs docs) :
    WFDocs (DriverMemory.upsertDocument docs d) := by
  obtain ⟨hkeys, hslots⟩ := hwf
  constructor
  · exact nodup_keys_updateA hkeys
  · intro pe hpe
    rcases mem_updateA hpe with rfl | hpe2
    · dsimp only
      have hsl : ∀ sl, lookupA d.path docs = some sl →
          (sl.map Prod.fst).Nodup ∧ ∀ ae ∈ sl, ae.2.path = d.path ∧ ae.2.author = ae.1 := by
        intro sl hl
        have hm := lookupA_mem hl
        have := hslots (d.path, sl) hm
        exact this
      constructor
      · cases hl : lookupA d.path docs with
        | none => simp [lookupA, updateA]
        | some sl =>
          simp only [hl, Option.getD_some]
          exact nodup_keys_updateA (hsl sl hl).1
      · intro ae hae
        cases hl : lookupA d.path docs with
        | none =>
          rw [hl] at hae
          simp only [Option.getD_none] at hae
          rw [updateA] at hae
          rcases List.mem_singleton.mp hae with rfl
          exact ⟨rfl, rfl⟩
        | some sl =>
          rw [hl] at hae
          simp only [Option.getD_some] at hae
          rcases mem_updateA hae with rfl | hmem
          · exact ⟨rfl, rfl⟩
          · exact (hsl sl hl).2 ae hmem
    · exact hslots pe hpe2

theorem predFilter_nil (p a : String) (now : Int) (slots : Slots)
    (hflds : ∀ ae ∈ slots, ae.2.author = ae.1)
    (hnot : a ∉ slots.map Prod.fst) :
    (slots.map Prod.snd).filter
      (fun d => queryMatchesDoc { path := some p, author := some a } d &&
        docLiveAt d now) = [] := by
  rw [List.filter_eq_nil_iff]
  intro d hd
  obtain ⟨⟨a1, d1⟩, hmem, rfl⟩ := List.mem_map.mp hd
  have hauth : d1.author = a1 := hflds (a1, d1) hmem
  have hne : a1 ≠ a := by
    intro h
    exact hnot (h ▸ List.mem_map_of_mem Prod.fst hmem)
  simp [queryMatchesDoc, hauth, hne]

theorem predFilter_eq (p a : String) (now : Int) (slots : Slots)
    (hkeys : (slots.map Prod.fst).Nodup)
    (hflds : ∀ ae ∈ slots, ae.2.path = p ∧ ae.2.author = ae.1) :
    (slots.map Prod.snd).filter
      (fun d => queryMatchesDoc { path := some p, author := some a } d &&
        docLiveAt d now) =
      (match lookupA a slots with
       | none => []
       | some ex => if docLiveAt ex now then [ex] else []) := by
  induction slots with
  | nil => rfl
  | cons q rest ih =>
    obtain ⟨a1, d1⟩ := q
    have hd1 := hflds (a1, d1) (List.mem_cons_self ..)
    have hd1p : d1.path = p := hd1.1
    have hd1a : d1.author = a1 := hd1.2
    have hkr : (rest.map Prod.fst).Nodup := (List.nodup_cons.mp hkeys).2
    have hfr : ∀ ae ∈ rest, ae.2.path = p ∧ ae.2.author = ae.1 :=
      fun ae hae => hflds ae (List.mem_cons_of_mem _ hae)
    simp only [List.map_cons, List.filter_cons]
    by_cases ha1 : a1 = a
    · subst ha1
      have hcond : (queryMatchesDoc { path := some p, author := some a1 } d1 &&
          docLiveAt d1 now) = docLiveAt d1 now := by
        simp [queryMatchesDoc, hd1p, hd1a]
      rw [hcond]
      have hrest : (rest.map Prod.snd).filter
          (fun d => queryMatchesDoc { path := some p, author := some a1 } d &&
            docLiveAt d now) = [] :=
        predFilter_nil p a1 now rest (fun ae hae => (hfr ae hae).2)
          (List.nodup_cons.mp hkeys).1
      rw [lookupA, if_pos rfl]
      cases hlv : docLiveAt d1 now with
      | true => simp [hrest, hlv]
      | false => simp [hrest, hlv]
    · have hcond : (queryMatchesDoc { path := some p, author := some a } d1 &&
          docLiveAt d1 now) = false := by
        have hbeq : (d1.author == a) = false := by simp [hd1a, ha1]
        simp only [queryMatchesDoc, hbeq, Bool.and_true, Bool.true_and, Bool.and_false,
          Bool.false_and]
      rw [hcond]
      rw [lookupA, if_neg ha1]
      exact ih hkr hfr

theorem livePred_live {now : Int} {cur : Option Document} {ex : Document}
    (h : livePred now cur = some ex) : docLiveAt ex now = true := by
  unfold livePred at h
  rcases cur with _ | e
  · cases h
  · dsimp only at h
    by_cases hl : docLiveAt e now = true
    · rw [if_pos hl] at h
      cases Option.some.inj h
      exact hl
    · rw [if_neg hl] at h
      cases h

/-- The predecessor read of `ingestDocument` — the head of
`documentQuery({path, author})` — is the slot's stored document when live,
and nothing otherwise. -/
theorem predQuery_eq (docs : DocsMap) (p a : String) (now : Int) (hwf : WFDocs docs) :
    (DriverMemory.documentQuery docs { path := some p, author := some a } now).head? =
      livePred now (slotLookup docs p a) := by
  unfold DriverMemory.documentQuery DriverMemory.cleanUpQuery
  dsimp only
  rw [if_neg (by simp)]
  unfold DriverMemory.gatherStage DriverMemory.filterStage
  dsimp only
  cases hl : lookupA p docs with
  | none =>
    have : slotLookup docs p a = none := by
      unfold slotLookup
      rw [hl]
      rfl
    rw [this]
    rfl
  | some slots =>
    have hsl : slotLookup docs p a = lookupA a slots := by
      unfold slotLookup
      rw [hl]
      rfl
    have hprops := hwf.2 (p, slots) (lookupA_mem hl)
    simp only [List.flatMap_cons, List.flatMap_nil, List.append_nil, Bool.false_eq_true,
      if_false]
    rw [predFilter_eq p a now slots hprops.1 hprops.2]
    rw [hsl]
    cases hla : lookupA a slots with
    | none => rfl
    | some ex =>
      dsimp only
      cases hlv : docLiveAt ex now with
      | true =>
        rw [if_pos rfl, show livePred now (some ex) = some ex from by
          simp [livePred, hlv]]
        rfl
      | false =>
        rw [if_neg (by simp), show livePred now (some ex) = none from by
          simp [livePred, hlv]]
        rfl

theorem slotStep_eq_cur_of_invalid {vals : List IValidator} {ws : String} {now : Int}
    {d : Document} (hinv : docValidFor vals ws now d = false)
    (p a : String) (cur : Option Document) :
    slotStep vals ws now p a cur d = cur := by
  rw [slotStep, if_neg]
  rintro ⟨_, _, hv, _⟩
  rw [hinv] at hv
  exact Bool.noConfusion hv

/-- The effect of one `ingestDocument` call on one slot of a well-formed open
store is `slotStep` of the slot's old value. -/
theorem applyIngest_slot (vals : List IValidator) (s : Storage2State) (d : Document)
    (hopen : s.isClosed = false) (hwf : WFDocs s.docs) (p a : String) :
    slotLookup (applyIngest vals s d).docs p a =
      slotStep vals s.workspace s.now p a (slotLookup s.docs p a) d := by
  cases hfv : findValidator vals d.format with
  | none =>
    have hinv : docValidFor vals s.workspace s.now d = false := by
      rw [docValidFor, hfv]
    have hing : Storage2.ingestDocument vals s d false =
        .ok (.validationError "ingestDocument: unrecognized format", s, none) := by
      unfold Storage2.ingestDocument
      rw [if_neg (by simp [hopen])]
      dsimp only
      rw [hfv]
    rw [applyIngest, hing, slotStep_eq_cur_of_invalid hinv]
  | some v =>
    cases hchk : v.checkDocumentIsValid d s.now with
    | false =>
      have hinv : docValidFor vals s.workspace s.now d = false := by
        rw [docValidFor, hfv]
        dsimp only
        rw [hchk]
        rfl
      have hing : Storage2.ingestDocument vals s d false =
          .ok (.validationError "ingestDocument: document check failed", s, none) := by
        unfold Storage2.ingestDocument
        rw [if_neg (by simp [hopen])]
        dsimp only
        rw [hfv]
        dsimp only
        rw [if_pos (by rw [hchk]; rfl)]
      rw [applyIngest, hing, slotStep_eq_cur_of_invalid hinv]
    | true =>
      by_cases hws : d.workspace = s.workspace
      case neg =>
        have hinv : docValidFor vals s.workspace s.now d = false := by
          rw [docValidFor, hfv]
          dsimp only
          rw [hchk]
          simp [hws]
        have hing : Storage2.ingestDocument vals s d false =
            .ok (.validationError
              "ingestDocument: cannot ingest doc from different workspace", s, none) := by
          unfold Storage2.ingestDocument
          rw [if_neg (by simp [hopen])]
          dsimp only
          rw [hfv]
          dsimp only
          rw [if_neg (by rw [hchk]; simp), if_pos hws]
        rw [applyIngest, hing, slotStep_eq_cur_of_invalid hinv]
      case pos =>
        have hval : docValidFor vals s.workspace s.now d = true := by
          rw [docValidFor, hfv]
          dsimp only
          rw [hchk, hws]
          simp
        cases hE : livePred s.now (slotLookup s.docs d.path d.author) with
        | none =>
          have hing : Storage2.ingestDocument vals s d false =
              .ok (Storage2.ingestAccept s d false) := by
            unfold Storage2.ingestDocument
            rw [if_neg (by simp [hopen])]
            dsimp only
            rw [hfv]
            dsimp only
            rw [if_neg (by rw [hchk]; simp), if_neg (by simp [hws]),
              predQuery_eq s.docs d.path d.author s.now hwf, hE]
          rw [applyIngest, hing]
          dsimp only [Storage2.ingestAccept]
          rw [slotLookup_upsert]
          rw [slotStep]
          by_cases hslot : d.path = p ∧ d.author = a
          · obtain ⟨hp2, ha2⟩ := hslot
            subst hp2
            subst ha2
            rw [if_pos ⟨rfl, rfl⟩, if_pos ⟨rfl, rfl, hval, by rw [predOk, hE]; trivial⟩]
          · rw [if_neg hslot, if_neg (by rintro ⟨h1, h2, _, _⟩; exact hslot ⟨h1, h2⟩)]
        | some ex =>
          have hexlive := livePred_live hE
          have hstep5 : (match ex.deleteAfter with
              | none => some ex
              | some da => if da < s.now then none else some ex) = some ex := by
            cases hda : ex.deleteAfter with
            | none => rfl
            | some da =>
              rw [docLiveAt, hda] at hexlive
              dsimp only at hexlive ⊢
              have hle : s.now ≤ da := by simpa using hexlive
              rw [if_neg (by omega)]
          cases hcmp : strLe (tsSigArrayStr d.timestamp d.signature)
              (tsSigArrayStr ex.timestamp ex.signature) with
          | true =>
            have hing : Storage2.ingestDocument vals s d false =
                .ok (.ignored, s, none) := by
              unfold Storage2.ingestDocument
              rw [if_neg (by simp [hopen])]
              dsimp only
              rw [hfv]
              dsimp only
              rw [if_neg (by rw [hchk]; simp), if_neg (by simp [hws]),
                predQuery_eq s.docs d.path d.author s.now hwf, hE]
              dsimp only
              rw [hstep5]
              dsimp only
              rw [if_pos hcmp]
            rw [applyIngest, hing]
            dsimp only
            rw [slotStep, if_neg]
            rintro ⟨hp2, ha2, _, hpred⟩
            subst hp2
            subst ha2
            rw [predOk, hE] at hpred
            dsimp only at hpred
            rw [hcmp] at hpred
            exact Bool.noConfusion hpred
          | false =>
            have hing : Storage2.ingestDocument vals s d false =
                .ok (Storage2.ingestAccept s d false) := by
              unfold Storage2.ingestDocument
              rw [if_neg (by simp [hopen])]
              dsimp only
              rw [hfv]
              dsimp only
              rw [if_neg (by rw [hchk]; simp), if_neg (by simp [hws]),
                predQuery_eq s.docs d.path d.author s.now hwf, hE]
              dsimp only
              rw [hstep5]
              dsimp only
              rw [if_neg (by rw [hcmp]; exact Bool.noConfusion)]
            rw [applyIngest, hing]
            dsimp only [Storage2.ingestAccept]
            rw [slotLookup_upsert]
            rw [slotStep]
            by_cases hslot : d.path = p ∧ d.author = a
            · obtain ⟨hp2, ha2⟩ := hslot
              subst hp2
              subst ha2
              rw [if_pos ⟨rfl, rfl⟩,
                if_pos ⟨rfl, rfl, hval, by rw [predOk, hE]; exact hcmp⟩]
            · rw [if_neg hslot, if_neg (by rintro ⟨h1, h2, _, _⟩; exact hslot ⟨h1, h2⟩)]

theorem ingest_ok_state (vals : List IValidator) (s : Storage2State) (d : Document)
    (il : Bool) (r : IngestResult) (s2 : Storage2State) (ev : Option WriteEvent)
    (h : Storage2.ingestDocument vals s d il = .ok (r, s2, ev)) :
    s2.workspace = s.workspace ∧ s2.now = s.now ∧ s2.isClosed = s.isClosed ∧
    (s2.docs = s.docs ∨ s2.docs = DriverMemory.upsertDocument s.docs d) := by
  unfold Storage2.ingestDocument Storage2.ingestAccept at h
  repeat' (first | split at h | dsimp only at h)
  all_goals
    first
    | exact Except.noConfusion h
    | (simp only [Except.ok.injEq, Prod.mk.injEq] at h
       obtain ⟨-, h2, -⟩ := h
       subst h2
       first
       | exact ⟨rfl, rfl, rfl, Or.inl rfl⟩
       | exact ⟨rfl, rfl, rfl, Or.inr rfl⟩)

theorem applyIngest_fields (vals : List IValidator) (s : Storage2State) (d : Document) :
    (applyIngest vals s d).workspace = s.workspace ∧
    (applyIngest vals s d).now = s.now ∧
    (applyIngest vals s d).isClosed = s.isClosed ∧
    ((applyIngest vals s d).docs = s.docs ∨
      (applyIngest vals s d).docs = DriverMemory.upsertDocument s.docs d) := by
  unfold applyIngest
  cases hres : Storage2.ingestDocument vals s d false with
  | error e => exact ⟨rfl, rfl, rfl, Or.inl rfl⟩
  | ok t =>
    obtain ⟨r, s2, ev⟩ := t
    exact ingest_ok_state vals s d false r s2 ev hres

theorem applyIngest_wf (vals : List IValidator) (s : Storage2State) (d : Document)
    (hwf : WFDocs s.docs) : WFDocs (applyIngest vals s d).docs := by
  rcases (applyIngest_fields vals s d).2.2.2 with h | h
  · rw [h]; exact hwf
  · rw [h]; exact WFDocs_upsert d hwf

/-- Folding a document list through `ingestDocument` acts on each slot as a
left fold of `slotStep` over the list. -/
theorem ingestList_slot (vals : List IValidator) :
    ∀ (l : List Document) (s : Storage2State), s.isClosed = false → WFDocs s.docs →
    ∀ p a, slotLookup (ingestList vals s l).docs p a =
      l.foldl (slotStep vals s.workspace s.now p a) (slotLookup s.docs p a) := by
  intro l
  induction l with
  | nil => intro s _ _ p a; rfl
  | cons d rest ih =>
    intro s hopen hwf p a
    have hfields := applyIngest_fields vals s d
    have hopen2 : (applyIngest vals s d).isClosed = false := by
      rw [hfields.2.2.1, hopen]
    have hwf2 : WFDocs (applyIngest vals s d).docs := applyIngest_wf vals s d hwf
    have hstep : ingestList vals s (d :: rest) = ingestList vals (applyIngest vals s d) rest :=
      rfl
    rw [hstep, ih (applyIngest vals s d) hopen2 hwf2 p a, hfields.1, hfields.2.1,
      applyIngest_slot vals s d hopen hwf p a]
    rfl

theorem findValidator_aux (fmt : String) (v : IValidator) :
    ∀ (vals : List IValidator) (acc : Option IValidator),
      vals.foldl (fun acc v2 => if v2.format = fmt then some v2 else acc) acc = some v →
      acc = some v ∨ v ∈ vals := by
  intro vals
  induction vals with
  | nil => intro acc h2; exact Or.inl h2
  | cons w rest ih =>
    intro acc h2
    rw [List.foldl_cons] at h2
    rcases ih (if w.format = fmt then some w else acc) h2 with hc | hc
    · by_cases hw : w.format = fmt
      · rw [if_pos hw] at hc
        cases Option.some.inj hc
        exact Or.inr (List.mem_cons_self ..)
      · rw [if_neg hw] at hc
        exact Or.inl hc
    · exact Or.inr (List.mem_cons_of_mem _ hc)

theorem findValidator_mem {vals : List IValidator} {fmt : String} {v : IValidator}
    (h : findValidator vals fmt = some v) : v ∈ vals := by
  unfold findValidator at h
  rcases findValidator_aux fmt v vals none h with hc | hc
  · cases hc
  · exact hc

/-- Once every valid document is live (the modelled validator property),
whatever a `slotStep` fold stores is live. -/
theorem slotStep_fold_live {vals : List IValidator} {ws : String} {now : Int}
    (hlive : ∀ v ∈ vals, ∀ d2 t, v.checkDocumentIsValid d2 t = true →
      docLiveAt d2 t = true)
    (p a : String) :
    ∀ (l : List Document) (cur : Option Document),
      (∀ e, cur = some e → docLiveAt e now = true) →
      ∀ d2, l.foldl (slotStep vals ws now p a) cur = some d2 → docLiveAt d2 now = true := by
  intro l
  induction l with
  | nil =>
    intro cur hcur d2 h2
    exact hcur d2 h2
  | cons x rest ih =>
    intro cur hcur d2 h2
    rw [List.foldl_cons] at h2
    refine ih _ ?_ d2 h2
    intro e he
    rw [slotStep] at he
    split at he
    · rename_i hcond
      have hex : e = x := (Option.some.inj he).symm
      rw [hex]
      obtain ⟨_, _, hv, _⟩ := hcond
      rw [docValidFor] at hv
      cases hfv : findValidator vals x.format with
      | none => rw [hfv] at hv; exact Bool.noConfusion hv
      | some v =>
        rw [hfv] at hv
        dsimp only at hv
        have hand : v.checkDocumentIsValid x now = true := by
          have := hv
          simp only [Bool.and_eq_true] at this
          exact this.1
        exact hlive v (findValidator_mem hfv) x now hand
    · exact hcur e he

theorem slotStep_skip {vals : List IValidator} {ws : String} {now : Int} {p a : String}
    {d : Document}
    (h : ¬(d.path = p ∧ d.author = a ∧ docValidFor vals ws now d = true))
    (cur : Option Document) : slotStep vals ws now p a cur d = cur := by
  rw [slotStep, if_neg]
  rintro ⟨h1, h2, h3, _⟩
  exact h ⟨h1, h2, h3⟩

theorem slotStep_valid {vals : List IValidator} {ws : String} {now : Int} {p a : String}
    {d : Document}
    (h : d.path = p ∧ d.author = a ∧ docValidFor vals ws now d = true)
    (cur : Option Document) :
    slotStep vals ws now p a cur d = if predOk now cur d then some d else cur := by
  by_cases hp : predOk now cur d
  · rw [slotStep, if_pos ⟨h.1, h.2.1, h.2.2, hp⟩, if_pos hp]
  · rw [slotStep, if_neg (by rintro ⟨_, _, _, hc⟩; exact hp hc), if_neg hp]

theorem livePred_some_live {now : Int} {d : Document} (h : docLiveAt d now = true) :
    livePred now (some d) = some d := by
  unfold livePred
  dsimp only
  rw [if_pos h]

theorem predOk_of_none {now : Int} {z : Option Document} {d : Document}
    (h : livePred now z = none) : predOk now z d := by
  rw [predOk, h]
  trivial

theorem predOk_iff_of_some {now : Int} {z : Option Document} {e d : Document}
    (h : livePred now z = some e) :
    predOk now z d ↔ strLe (tsSigArrayStr d.timestamp d.signature)
      (tsSigArrayStr e.timestamp e.signature) = false := by
  rw [predOk, h]

/-- Two same-slot ingest steps commute, provided valid documents are live and
stringified `(timestamp, signature)` keys identify documents within a
slot. -/
theorem slotStep_comm (vals : List IValidator) (ws : String) (now : Int) (p a : String)
    (x y : Document)
    (hxl : docValidFor vals ws now x = true → docLiveAt x now = true)
    (hyl : docValidFor vals ws now y = true → docLiveAt y now = true)
    (hxy : x.path = y.path → x.author = y.author →
      tsSigArrayStr x.timestamp x.signature = tsSigArrayStr y.timestamp y.signature → x = y)
    (z : Option Document) :
    slotStep vals ws now p a (slotStep vals ws now p a z x) y =
      slotStep vals ws now p a (slotStep vals ws now p a z y) x := by
  by_cases hmx : x.path = p ∧ x.author = a ∧ docValidFor vals ws now x = true
  case neg =>
    rw [slotStep_skip hmx, slotStep_skip hmx]
  case pos =>
    by_cases hmy : y.path = p ∧ y.author = a ∧ docValidFor vals ws now y = true
    case neg =>
      rw [slotStep_skip hmy, slotStep_skip hmy]
    case pos =>
      have hlx : docLiveAt x now = true := hxl hmx.2.2
      have hly : docLiveAt y now = true := hyl hmy.2.2
      have hxyEq : tsSigArrayStr x.timestamp x.signature =
          tsSigArrayStr y.timestamp y.signature → x = y := by
        intro hk
        exact hxy (hmx.1.trans hmy.1.symm) (hmx.2.1.trans hmy.2.1.symm) hk
      have hargmax : ∀ u v : Document,
          (u.path = p ∧ u.author = a ∧ docValidFor vals ws now u = true) →
          (v.path = p ∧ v.author = a ∧ docValidFor vals ws now v = true) →
          docLiveAt u now = true → docLiveAt v now = true →
          (tsSigArrayStr u.timestamp u.signature = tsSigArrayStr v.timestamp v.signature →
            u = v) →
          slotStep vals ws now p a (some u) v = slotStep vals ws now p a (some v) u := by
        intro u v hmu hmv hlu hlv huv
        rw [slotStep_valid hmv, slotStep_valid hmu]
        have hiu : predOk now (some u) v ↔ strLe (tsSigArrayStr v.timestamp v.signature)
            (tsSigArrayStr u.timestamp u.signature) = false :=
          predOk_iff_of_some (livePred_some_live hlu)
        have hiv : predOk now (some v) u ↔ strLe (tsSigArrayStr u.timestamp u.signature)
            (tsSigArrayStr v.timestamp v.signature) = false :=
          predOk_iff_of_some (livePred_some_live hlv)
        by_cases hp1 : predOk now (some u) v
        · rw [if_pos hp1]
          by_cases hp2 : predOk now (some v) u
          · exfalso
            rcases strLe_total (tsSigArrayStr u.timestamp u.signature)
              (tsSigArrayStr v.timestamp v.signature) with hc | hc
            · rw [hiv.mp hp2] at hc; exact Bool.noConfusion hc
            · rw [hiu.mp hp1] at hc; exact Bool.noConfusion hc
          · rw [if_neg hp2]
        · rw [if_neg hp1]
          by_cases hp2 : predOk now (some v) u
          · rw [if_pos hp2]
          · rw [if_neg hp2]
            have hle1 : strLe (tsSigArrayStr v.timestamp v.signature)
                (tsSigArrayStr u.timestamp u.signature) = true :=
              Bool.not_eq_false _ |>.mp (fun hcc => hp1 (hiu.mpr hcc))
            have hle2 : strLe (tsSigArrayStr u.timestamp u.signature)
                (tsSigArrayStr v.timestamp v.signature) = true :=
              Bool.not_eq_false _ |>.mp (fun hcc => hp2 (hiv.mpr hcc))
            have hk := strLe_antisymm hle2 hle1
            rw [huv hk]
      cases hz : livePred now z with
      | none =>
        rw [slotStep_valid hmx z, slotStep_valid hmy z,
          if_pos (predOk_of_none hz), if_pos (predOk_of_none hz)]
        exact hargmax x y hmx hmy hlx hly hxyEq
      | some e =>
        have hkey : ∀ d2 : Document, predOk now z d2 ↔
            strLe (tsSigArrayStr d2.timestamp d2.signature)
              (tsSigArrayStr e.timestamp e.signature) = false :=
          fun d2 => predOk_iff_of_some hz
        rw [slotStep_valid hmx z, slotStep_valid hmy z]
        by_cases hbx : strLe (tsSigArrayStr x.timestamp x.signature)
            (tsSigArrayStr e.timestamp e.signature) = false
        · rw [if_pos ((hkey x).mpr hbx)]
          by_cases hby : strLe (tsSigArrayStr y.timestamp y.signature)
              (tsSigArrayStr e.timestamp e.signature) = false
          · rw [if_pos ((hkey y).mpr hby)]
            exact hargmax x y hmx hmy hlx hly hxyEq
          · rw [if_neg (fun hc => hby ((hkey y).mp hc))]
            rw [slotStep_valid hmy (some x), slotStep_valid hmx z,
              if_pos ((hkey x).mpr hbx)]
            have hyE : strLe (tsSigArrayStr y.timestamp y.signature)
                (tsSigArrayStr e.timestamp e.signature) = true :=
              Bool.not_eq_false _ |>.mp hby
            have hEx : strLe (tsSigArrayStr e.timestamp e.signature)
                (tsSigArrayStr x.timestamp x.signature) = true := by
              rcases strLe_total (tsSigArrayStr x.timestamp x.signature)
                (tsSigArrayStr e.timestamp e.signature) with hc | hc
              · rw [hbx] at hc; exact Bool.noConfusion hc
              · exact hc
            have hyx : strLe (tsSigArrayStr y.timestamp y.signature)
                (tsSigArrayStr x.timestamp x.signature) = true :=
              strLe_trans hyE hEx
            rw [if_neg (by
              rw [predOk_iff_of_some (livePred_some_live hlx)]
              rw [hyx]
              exact fun hcc => Bool.noConfusion hcc)]
        · rw [if_neg (fun hc => hbx ((hkey x).mp hc))]
          by_cases hby : strLe (tsSigArrayStr y.timestamp y.signature)
              (tsSigArrayStr e.timestamp e.signature) = false
          · rw [if_pos ((hkey y).mpr hby)]
            rw [slotStep_valid hmx (some y), slotStep_valid hmy z,
              if_pos ((hkey y).mpr hby)]
            have hxE : strLe (tsSigArrayStr x.timestamp x.signature)
                (tsSigArrayStr e.timestamp e.signature) = true :=
              Bool.not_eq_false _ |>.mp hbx
            have hEy : strLe (tsSigArrayStr e.timestamp e.signature)
                (tsSigArrayStr y.timestamp y.signature) = true := by
              rcases strLe_total (tsSigArrayStr y.timestamp y.signature)
                (tsSigArrayStr e.timestamp e.signature) with hc | hc
              · rw [hby] at hc; exact Bool.noConfusion hc
              · exact hc
            have hxy2 : strLe (tsSigArrayStr x.timestamp x.signature)
                (tsSigArrayStr y.timestamp y.signature) = true :=
              strLe_trans hxE hEy
            rw [if_neg (by
              rw [predOk_iff_of_some (livePred_some_live hly)]
              rw [hxy2]
              exact fun hcc => Bool.noConfusion hcc)]
          · rw [if_neg (fun hc => hby ((hkey y).mp hc))]
            rw [slotStep_valid hmy z, slotStep_valid hmx z,
              if_neg (fun hc => hby ((hkey y).mp hc)),
              if_neg (fun hc => hbx ((hkey x).mp hc))]

/-- C2: Convergence.  Ingesting the same list of documents in any two orders
(via `ingestDocument`, modelled by the `ingestList` fold of `applyIngest`)
into fresh empty stores with the same validators and the same clock yields
stores holding the same document at every slot `(path, author)`, and every
stored document is live.  Hypotheses: the validators only accept live
documents (the modelled es4 property, §4.5/§6), and validly-signed documents
of the set are determined within a slot by their stringified
`(timestamp, signature)` key — distinct same-slot documents with the same
timestamp and signature would be distinct contents under one signature,
which valid signing excludes (§3). -/
theorem claim2_convergence (vals : List IValidator) (ws : String) (now : Int)
    (l1 l2 : List Document)
    (hperm : List.Perm l1 l2)
    (hlive : ∀ v ∈ vals, ∀ d t, v.checkDocumentIsValid d t = true →
      docLiveAt d t = true)
    (hinj : ∀ x ∈ l1, ∀ y ∈ l1, x.path = y.path → x.author = y.author →
      tsSigArrayStr x.timestamp x.signature = tsSigArrayStr y.timestamp y.signature →
      x = y) :
    (∀ p a, slotLookup (ingestList vals (emptyStorage ws now) l1).docs p a =
      slotLookup (ingestList vals (emptyStorage ws now) l2).docs p a) ∧
    (∀ p a d, slotLookup (ingestList vals (emptyStorage ws now) l1).docs p a = some d →
      docLiveAt d now = true) := by
  have hchar1 := ingestList_slot vals l1 (emptyStorage ws now) rfl WFDocs_empty
  have hchar2 := ingestList_slot vals l2 (emptyStorage ws now) rfl WFDocs_empty
  have hvl : ∀ d, docValidFor vals ws now d = true → docLiveAt d now = true := by
    intro d hd
    rw [docValidFor] at hd
    cases hfv : findValidator vals d.format with
    | none => rw [hfv] at hd; exact Bool.noConfusion hd
    | some v =>
      rw [hfv] at hd
      dsimp only at hd
      have hc : v.checkDocumentIsValid d now = true := by
        simp only [Bool.and_eq_true] at hd
        exact hd.1
      exact hlive v (findValidator_mem hfv) d now hc
  constructor
  · intro p a
    rw [hchar1 p a, hchar2 p a]
    exact hperm.foldl_eq'
      (fun x hx y hy z => slotStep_comm vals ws now p a x y (hvl x) (hvl y)
        (hinj x hx y hy) z)
      (slotLookup (emptyStorage ws now).docs p a)
  · intro p a d hd
    rw [hchar1 p a] at hd
    exact slotStep_fold_live hlive p a l1 (slotLookup (emptyStorage ws now).docs p a)
      (fun e he => Option.noConfusion he) d hd

/-- Witness for C2 at a concrete pair of orderings: the two singleton-slot
documents of C1, ingested in both orders into empty stores with the es4
validator, land in the same store state. -/
theorem claim2_convergence_witness :
    List.Perm [c2docB, c2docA] [c2docA, c2docB] ∧
    ((∀ p a,
      slotLookup (ingestList [es4Validator] (emptyStorage "+w" 1000)
        [c2docB, c2docA]).docs p a =
      slotLookup (ingestList [es4Validator] (emptyStorage "+w" 1000)
        [c2docA, c2docB]).docs p a) ∧
    (∀ p a d,
      slotLookup (ingestList [es4Validator] (emptyStorage "+w" 1000)
        [c2docB, c2docA]).docs p a = some d → docLiveAt d 1000 = true)) :=
  ⟨by decide,
    claim2_convergence [es4Validator] "+w" 1000 [c2docB, c2docA] [c2docA, c2docB]
      (by decide)
      (fun v hv d t h => by cases List.mem_singleton.mp hv; exact h)
      (by decide)⟩

end Earthstar
